import Mathlib

/-!
# Dead link finder (`deadlink.c`): a shallow embedding of the crawl engine

The development follows the C source function by function.

* A C string is the list of the characters that stand before its terminating
  NUL (`CStr`), a character standing for a byte.  Where a library routine reads
  the terminator itself (`strncmp`), the terminator is explicit in the model.
* Allocation (`strdup`, `g_strdup_printf`, `g_strdup`) always succeeds.  The
  integers of the source stay small (`depth ≤ MAX_DEPTH + 1`,
  `count ≤ MAX_LINKS`, offsets within the page), so they are natural numbers;
  the code returned by `check_link` is an integer.
* The network (`fetch_remote`, `check_link`) and the `volatile` stop flag are
  the environment of the crawl: a `Site` gives the answer of every request and
  the value seen by every read of the flag.
* `regexec` is the POSIX leftmost-longest match of the one pattern compiled in
  `extract_links`, letters compared without case as in the C locale
  (`regexec_leftmost_longest` checks the model against the pattern).
* `extract_links` writes two arrays, `char href[1024]` and
  `char *links[MAX_LINKS]`, and both have their bounds in the model: a write
  outside an array is a `Fault`, which ends the run.  The traversal is built
  on that function, so a run of `dfs` ends normally or on a fault.
* A run returns its final state, the ordered list of the events it caused
  (flag reads, insertions in the visited table, requests, messages) and the
  fault it ended on, if any.
-/

namespace DeadLink

/-! ## Constants -/

/-- The constant `#define MAX_DEPTH 3`. -/
def MAX_DEPTH : Nat := 3

/-- The constant `#define MAX_LINKS 1000`. -/
def MAX_LINKS : Nat := 1000

/-- The size of `char href[1024]` in `extract_links`. -/
def HREF_SIZE : Nat := 1024

/-- The characters of a C string, terminator excluded. -/
abbrev CStr := List Char

/-! ## libc string routines -/

/-- The terminator of a C string. -/
def NUL : Char := Char.ofNat 0

/-- The routine `strncmp(a, b, n)`: compares at most `n` characters, the terminator that
follows the last character of each list included; a pair of equal NUL
characters ends the comparison.  The result is the difference of the first
pair of characters that differ, `0` when there is none. -/
def strncmp : CStr → CStr → Nat → Int
  | _, _, 0 => 0
  | [], [], _ + 1 => 0
  | [], b :: _, _ + 1 => (0 : Int) - b.toNat
  | a :: _, [], _ + 1 => (a.toNat : Int)
  | a :: as, b :: bs, n + 1 =>
    if a = b then (if a = NUL then 0 else strncmp as bs n)
    else (a.toNat : Int) - b.toNat

/-- The routine `strlen`: the number of characters before the terminator. -/
def strlen (s : CStr) : Nat := s.length

/-- The routine `strstr(haystack, needle)`: the suffix of `haystack` that starts at the
first occurrence of `needle`, `none` (NULL) when `needle` does not occur. -/
def strstr : CStr → CStr → Option CStr
  | [], needle => if needle.isEmpty then some [] else none
  | c :: cs, needle =>
    if needle.isPrefixOf (c :: cs) then some (c :: cs) else strstr cs needle

/-! ## `normalize_url` and `is_same_domain` -/

/-- Lines 78-84.
```
if (strstr(href, "http://") || strstr(href, "https://")) return strdup(href);
if (href[0] == '/') return g_strdup_printf("%s%s", base, href);
return NULL;
``` -/
def normalize_url (base href : CStr) : Option CStr :=
  if (strstr href "http://".toList).isSome || (strstr href "https://".toList).isSome then
    some href
  else if href.head? = some '/' then
    some (base ++ href)
  else
    none

/-- Lines 103-105: `strncmp(base, url, strlen(base)) == 0`. -/
def is_same_domain (base url : CStr) : Bool :=
  strncmp base url (strlen base) == 0

/-- The normalizer as the specification words it: rule 1 is a test on the
beginning of `href`. -/
def normalize_spec (base href : CStr) : Option CStr :=
  if "http://".toList.isPrefixOf href || "https://".toList.isPrefixOf href then
    some href
  else if href.head? = some '/' then
    some (base ++ href)
  else
    none

/-! ## `regexec` for the pattern of `extract_links`

The pattern is `<a[^>]+href=["']([^"']+)["']`, compiled with
`REG_ICASE | REG_EXTENDED`.  A match that starts at a given place is fixed by
the place `k` of the quote that opens the value: the value runs up to the next
quote, which has to exist and to leave at least one character in between; the
five characters before `k` read `href=` in either case, and the text between
`<a` and them is not empty and has no `>`.  Two admissible places `k < k2`
give matches that end at or before `k2` and after `k2`, so the longest match
is the one of the last admissible place.  `regexec` reports the match that
starts first and, from there, the longest one. -/

/-- The C type `regmatch_t`: offsets from the start of the searched text. -/
structure regmatch_t where
  rm_so : Nat
  rm_eo : Nat
  deriving DecidableEq, Repr

/-- A character of the class `["']`. -/
def isQuote (c : Char) : Bool := c == '"' || c == Char.ofNat 39

/-- The character `c` is the letter `lower` in either case (`REG_ICASE`). -/
def eqIgnoreCase (c lower : Char) : Bool := c == lower || c == lower.toUpper

/-- The end of the pattern, `href=["']([^"']+)["']`, matched at the head of the
text: the length of the captured value. -/
def matchHref : List Char → Option Nat
  | h :: r :: e :: f :: eq :: q :: rest =>
    if eqIgnoreCase h 'h' && eqIgnoreCase r 'r' && eqIgnoreCase e 'e' &&
        eqIgnoreCase f 'f' && eq == '=' && isQuote q then
      let value := rest.takeWhile (fun c => !isQuote c)
      match rest.drop value.length with
      | q2 :: _ => if isQuote q2 && 0 < value.length then some value.length else none
      | [] => none
    else none
  | _ => none

/-- The rest of the pattern after `<a` and `off - 2 ≥ 1` characters of
`[^>]+`, the text standing at offset `off` of the match: `[^>]+` takes one
more character when that still gives a match (the longer one), and otherwise
`href=` starts here.  The result is the offset of `href=` and the length of
the value. -/
def scanAttr : List Char → Nat → Option (Nat × Nat)
  | [], _ => none
  | c :: cs, off =>
    let longer := if c == '>' then none else scanAttr cs (off + 1)
    match longer with
    | some r => some r
    | none => (matchHref (c :: cs)).map (fun len => (off, len))

/-- The longest match of the pattern that starts at the head of the text. -/
def matchAt : List Char → Option (Nat × Nat)
  | lt :: a :: c :: cs =>
    if lt == '<' && eqIgnoreCase a 'a' && !(c == '>') then scanAttr cs 3 else none
  | _ => none

/-- The search of `regexec` from offset `p` on. -/
def regexecFrom : List Char → Nat → Option (regmatch_t × regmatch_t)
  | [], _ => none
  | c :: cs, p =>
    match matchAt (c :: cs) with
    | some (off, len) =>
      some (⟨p, p + off + 6 + len + 1⟩, ⟨p + off + 6, p + off + 6 + len⟩)
    | none => regexecFrom cs (p + 1)

/-- The call `regexec(&regex, cursor, 2, matches, 0)`: `matches[0]` and `matches[1]`
when the pattern matches, `none` for `REG_NOMATCH`. -/
def regexec (cursor : List Char) : Option (regmatch_t × regmatch_t) :=
  regexecFrom cursor 0

/-! ## The hrefs matched in a page -/

/-- The text a match gives for the parenthesised part of the pattern: the
characters of the searched text from `rm_so` up to `rm_eo`. -/
def matchedValue (cursor : List Char) (m : regmatch_t) : CStr :=
  (cursor.drop m.rm_so).take (m.rm_eo - m.rm_so)

/-- The values matched by the successive matches of the pattern, the search
resuming after each match: every `href` of the document, in document order,
without a cap. -/
def hrefsFrom : Nat → List Char → List CStr
  | 0, _ => []
  | fuel + 1, cursor =>
    match regexec cursor with
    | some (m0, m1) => matchedValue cursor m1 :: hrefsFrom fuel (cursor.drop m0.rm_eo)
    | none => []

/-- Every `href` value the pattern matches in `html`, in document order. -/
def allMatches (html : List Char) : List CStr :=
  hrefsFrom (html.length + 1) html

/-! ## `extract_links`

The loop writes two arrays: `char href[1024]`, declared in the body of the
loop, and `char *links[MAX_LINKS]`, declared by `dfs`.  A write outside an
array is a `Fault`. -/

/-- What ends a run before its normal end. -/
inductive Fault where
  /-- The run was cut short by its fuel. -/
  | fuel
  /-- A write to `href[index]` with `index` outside `char href[1024]`. -/
  | href (index : Nat)
  /-- A write to `links[index]` with `index` outside `char *links[MAX_LINKS]`. -/
  | links (index : Nat)
  /-- A read of an entry of `links` that was never written. -/
  | unset
  deriving DecidableEq, Repr

/-- The call `strncpy(dst, src, n)` into the buffer `dst`: the first `n` cells of `dst`
receive the characters of `src`, NUL once `src` is exhausted; `none` when `n`
cells are more than `dst` has. -/
def strncpy_checked : List Char → CStr → Nat → Option (List Char)
  | dst, _, 0 => some dst
  | [], _, _ + 1 => none
  | _ :: ds, [], n + 1 => (strncpy_checked ds [] n).map (fun r => NUL :: r)
  | _ :: ds, c :: cs, n + 1 => (strncpy_checked ds cs n).map (fun r => c :: r)

/-- The write `buf[i] = v`, `none` when `i` is outside `buf`. -/
def store {α : Type} (buf : List α) (i : Nat) (v : α) : Option (List α) :=
  if i < buf.length then some (buf.set i v) else none

/-- The C string held by a buffer: the characters before its first NUL. -/
def cstrOf (buf : List Char) : CStr :=
  buf.takeWhile (fun c => c != NUL)

/-- The loop of lines 91-99: `links` is the array of `dfs` (an entry is `none`
until it is written) and `count` is `*count`.  Every round consumes a match,
which is not empty, so `fuel` above the length of the text is never used
up. -/
def extract_loop (maxLinks hrefSize : Nat) (base : CStr) :
    Nat → List Char → List (Option CStr) → Nat → Except Fault (List (Option CStr) × Nat)
  | 0, _, _, _ => Except.error Fault.fuel
  | fuel + 1, cursor, links, count =>
    if count < maxLinks then
      match regexec cursor with
      | some (m0, m1) =>
        let len := m1.rm_eo - m1.rm_so
        match strncpy_checked (List.replicate hrefSize NUL) (cursor.drop m1.rm_so) len with
        | none => Except.error (Fault.href hrefSize)
        | some copied =>
          match store copied len NUL with
          | none => Except.error (Fault.href len)
          | some href =>
            match normalize_url base (cstrOf href) with
            | some full =>
              match store links count (some full) with
              | none => Except.error (Fault.links count)
              | some links2 =>
                extract_loop maxLinks hrefSize base fuel (cursor.drop m0.rm_eo)
                  links2 (count + 1)
            | none =>
              extract_loop maxLinks hrefSize base fuel (cursor.drop m0.rm_eo)
                links count
      | none => Except.ok (links, count)
    else Except.ok (links, count)

/-- Lines 86-101, called as `dfs` does (lines 146-148): a fresh array `links`
of `MAX_LINKS` entries and `count = 0`.  The result is the array and
`count`. -/
def extract_links (html : List Char) (base : CStr) :
    Except Fault (List (Option CStr) × Nat) :=
  extract_loop MAX_LINKS HREF_SIZE base (html.length + 1) html
    (List.replicate MAX_LINKS none) 0

/-! ## The crawl -/

/-- The messages handed to `append_message`. -/
inductive Finding where
  /-- The message `"Unreachable or missing: %s\n"`. -/
  | unreachable (url : CStr)
  /-- The message `"Dead link (%d): %s\n"`. -/
  | dead (code : Int) (url : CStr)
  /-- The message `"\n--- Scan complete ---\n"`. -/
  | complete
  /-- The message `"\n--- Scan stopped by user ---\n"`. -/
  | stopped
  deriving DecidableEq, Repr

/-- What the worker does that can be seen from outside, in order. -/
inductive Event where
  /-- A read of `*stop_flag` and the value read. -/
  | check (b : Bool)
  /-- The call `g_hash_table_add(visited, g_strdup(url))`. -/
  | visit (url : CStr)
  /-- The call `fetch_remote(url)`, with the depth of the call of `dfs` that issues it. -/
  | fetch (url : CStr) (depth : Nat)
  /-- The call `check_link(url)`. -/
  | probe (url : CStr)
  /-- A call of `append_message`. -/
  | emit (f : Finding)
  deriving DecidableEq, Repr

/-- The environment of one scan: the body `fetch_remote` returns for a URL
(`none` for NULL), the code `check_link` returns, and the value of the stop
flag at its `k`-th read (`k` counted from 0). -/
structure Site where
  fetch_remote : CStr → Option (List Char)
  check_link : CStr → Int
  stop_flag : Nat → Bool

/-- The state of the worker: the number of reads of the stop flag made so far
and the keys of the table `visited`, in insertion order. -/
structure St where
  clock : Nat
  visited : List CStr
  deriving DecidableEq, Repr

/-- A run of the worker, or of a part of it: the state it ends in, the events
it caused, and the fault that ended it (`none` for a run that reached its
normal end). -/
structure Run where
  st : St
  evs : List Event
  fault : Option Fault
  deriving DecidableEq, Repr

/-- The loop of lines 151-168 over the entries `links[i ..]` below `count`,
the recursive call of `dfs` being `call`.  A fault in a recursive call ends
the loop. -/
def linkLoop (S : Site) (base : CStr) (call : CStr → St → Run) :
    List (Option CStr) → St → Run
  | [], st => ⟨st, [], none⟩
  | entry :: rest, st =>
    let b := S.stop_flag st.clock
    let st1 : St := { st with clock := st.clock + 1 }
    if b then
      ⟨st1, [Event.check b], none⟩
    else
      match entry with
      | none => ⟨st1, [Event.check b], some Fault.unset⟩
      | some link =>
        if !is_same_domain base link then
          let r := linkLoop S base call rest st1
          ⟨r.st, Event.check b :: r.evs, r.fault⟩
        else
          let code := S.check_link link
          let report := if code ≥ 400 then [Event.emit (Finding.dead code link)] else []
          let r := call link st1
          match r.fault with
          | some f => ⟨r.st, [Event.check b, Event.probe link] ++ report ++ r.evs, some f⟩
          | none =>
            let r2 := linkLoop S base call rest r.st
            ⟨r2.st, [Event.check b, Event.probe link] ++ report ++ r.evs ++ r2.evs, r2.fault⟩

/-- Lines 134-169, `MAX_DEPTH` being `maxDepth`.  Each call at depth `d` nests
calls at depth `d + 1` only and a call above `maxDepth` returns at once, so
`fuel` above `maxDepth + 1 - depth` is never used up.  A fault of
`extract_links` ends the run. -/
def dfs (S : Site) (maxDepth : Nat) (base : CStr) : Nat → CStr → Nat → St → Run
  | 0, _, _, st => ⟨st, [], some Fault.fuel⟩
  | fuel + 1, url, depth, st =>
    let b := S.stop_flag st.clock
    let st1 : St := { st with clock := st.clock + 1 }
    if b || decide (depth > maxDepth) || st.visited.contains url then
      ⟨st1, [Event.check b], none⟩
    else
      let st2 : St := { st1 with visited := st1.visited ++ [url] }
      match S.fetch_remote url with
      | none =>
        ⟨st2, [Event.check b, Event.visit url, Event.fetch url depth,
          Event.emit (Finding.unreachable url)], none⟩
      | some html =>
        match extract_links html base with
        | Except.error f =>
          ⟨st2, [Event.check b, Event.visit url, Event.fetch url depth], some f⟩
        | Except.ok (links, count) =>
          let r := linkLoop S base (fun link s => dfs S maxDepth base fuel link (depth + 1) s)
            (links.take count) st2
          ⟨r.st, [Event.check b, Event.visit url, Event.fetch url depth] ++ r.evs, r.fault⟩

/-- Lines 199-209 with `MAX_DEPTH` being `maxDepth`: the run of `dfs` from the
seed on an empty table, then the read of the flag and the final message.  The
field `st.visited` of the result is the table when it is destroyed. -/
def scan (S : Site) (maxDepth : Nat) (input : CStr) : Run :=
  let r := dfs S maxDepth input (maxDepth + 2) input 0 ⟨0, []⟩
  match r.fault with
  | some f => ⟨r.st, r.evs, some f⟩
  | none =>
    let b := S.stop_flag r.st.clock
    ⟨{ r.st with clock := r.st.clock + 1 },
      r.evs ++ [Event.check b, Event.emit (if b then Finding.stopped else Finding.complete)],
      none⟩

/-- Lines 199-209. -/
def worker_thread (S : Site) (input : CStr) : Run :=
  scan S MAX_DEPTH input

/-! ## Reading a list of events -/

/-- The findings, in order. -/
def findings (evs : List Event) : List Finding :=
  evs.filterMap (fun e => match e with | Event.emit f => some f | _ => none)

/-- The URLs passed to `fetch_remote`, in order. -/
def fetched (evs : List Event) : List CStr :=
  evs.filterMap (fun e => match e with | Event.fetch u _ => some u | _ => none)

/-- The URLs passed to `check_link`, in order. -/
def probed (evs : List Event) : List CStr :=
  evs.filterMap (fun e => match e with | Event.probe u => some u | _ => none)

/-- The URLs added to the visited table, in order. -/
def visits (evs : List Event) : List CStr :=
  evs.filterMap (fun e => match e with | Event.visit u => some u | _ => none)


/-! ## Pages for the examples -/

/-- The base of the examples. -/
def exampleBase : CStr := "http://a.com".toList

/-- A page with one anchor whose href has 1024 characters. -/
def longHrefHtml : List Char :=
  "<a href=\"".toList ++ (List.replicate 1024 'a' ++ "\">".toList)


/-! ## The pattern, as a relation

The pattern `<a[^>]+href=["']([^"']+)["']` read part by part, against which
`regexec` is checked. -/

/-- The text starts with a match of `href=["']([^"']+)["']` whose value has
`n` characters. -/
def HrefAt (t : List Char) (n : Nat) : Prop :=
  ∃ (h r e f eq q1 : Char) (value : List Char) (q2 : Char) (rest : List Char),
    t = h :: r :: e :: f :: eq :: q1 :: (value ++ q2 :: rest) ∧
    eqIgnoreCase h 'h' = true ∧ eqIgnoreCase r 'r' = true ∧ eqIgnoreCase e 'e' = true ∧
    eqIgnoreCase f 'f' = true ∧ eq = '=' ∧ isQuote q1 = true ∧
    value.length = n ∧ 0 < n ∧ (∀ c ∈ value, isQuote c = false) ∧ isQuote q2 = true

/-- The text starts with a match of the whole pattern in which `href=` stands
at offset `k` and the value has `n` characters: `<`, `a`, a text `mid` for
`[^>]+`, then `href=["']([^"']+)["']`.  The match has `k + 6 + n + 1`
characters. -/
def PatternAt (t : List Char) (k n : Nat) : Prop :=
  ∃ (a : Char) (mid tail : List Char),
    t = '<' :: a :: (mid ++ tail) ∧ eqIgnoreCase a 'a' = true ∧
    mid ≠ [] ∧ (∀ c ∈ mid, c ≠ '>') ∧ k = 2 + mid.length ∧ HrefAt tail n

/-! ## The arrays of `extract_links` as lists -/

/-- The array `links` with `count` entries written holds the list `ls`: the
first `count` entries are set, to the members of `ls` in order. -/
def ArraysAgree (maxLinks : Nat) (arr : List (Option CStr)) (count : Nat) (ls : List CStr) :
    Prop :=
  count = ls.length ∧ count ≤ maxLinks ∧ arr.length = maxLinks ∧ arr.take count = ls.map some

/-- What the loop of `extract_links` may return, `expected` being the list of
links it is to store and `hrefs` the values matched in the text: the arrays
hold the expected list, or a write fell outside `href`, at index `hrefSize`,
for a matched value of `hrefSize` characters or more. -/
def ExtractOutcome (maxLinks hrefSize : Nat) (expected : List CStr)
    (hrefs : List CStr) : Except Fault (List (Option CStr) × Nat) → Prop
  | Except.ok (arr, count) => ArraysAgree maxLinks arr count expected
  | Except.error (Fault.href i) => i = hrefSize ∧ ∃ v ∈ hrefs, hrefSize ≤ v.length
  | Except.error Fault.fuel => False
  | Except.error (Fault.links _) => False
  | Except.error Fault.unset => False

/-- The links of a page: the matched hrefs that pass `normalize_url`,
normalized, in document order, up to `MAX_LINKS` of them. -/
def pageLinks (html : List Char) (base : CStr) : List CStr :=
  ((allMatches html).filterMap (normalize_url base)).take MAX_LINKS

/-- Every href matched in the page fits in `char href[1024]` with its
terminator. -/
def ShortHrefs (html : List Char) : Prop :=
  ∀ v ∈ allMatches html, v.length < HREF_SIZE

/-- Every page the site serves has hrefs that fit in `char href[1024]`. -/
def SafeSite (S : Site) : Prop :=
  ∀ u html, S.fetch_remote u = some html → ShortHrefs html

/-! ## Auxiliary definitions for the statements -/

/-- The events of the loop for a link in scope, before the recursive call: the
read of the flag, the probe, and the report of a code of 400 or more. -/
def probeEvents (S : Site) (link : CStr) : List Event :=
  [Event.check false, Event.probe link] ++
    (if S.check_link link ≥ 400 then
      [Event.emit (Finding.dead (S.check_link link) link)] else [])

/-- What a run of `dfs` on `url`, or of the link loop (`url = none`), does to
the visited table. -/
def VisitedInv (base : CStr) (url : Option CStr) (st : St) (r : Run) : Prop :=
  r.st.visited = st.visited ++ fetched r.evs ∧
  visits r.evs = fetched r.evs ∧
  (st.visited.Nodup → r.st.visited.Nodup) ∧
  ∀ u ∈ fetched r.evs, some u = url ∨ is_same_domain base u = true

/-- A run ends normally or on a write at `href[1024]`. -/
def FaultOk (r : Run) : Prop :=
  r.fault = none ∨ r.fault = some (Fault.href HREF_SIZE)

/-- Every event is a read of the stop flag that finds it set. -/
def Quiet (evs : List Event) : Prop := ∀ e ∈ evs, e = Event.check true

/-- After the first read that finds the stop flag set, every event is such a
read. -/
def QuietAfterStop : List Event → Prop
  | [] => True
  | e :: es => (e = Event.check true → Quiet es) ∧ (e ≠ Event.check true → QuietAfterStop es)

/-- What a run guarantees about the stop flag: the number of reads does not
decrease, the events are quiet after the first read that finds the flag set,
and after such a read the flag is set at the next read and the run ends
without a fault. -/
def StopInv (S : Site) (st : St) (r : Run) : Prop :=
  st.clock ≤ r.st.clock ∧ QuietAfterStop r.evs ∧
  (Event.check true ∈ r.evs → S.stop_flag r.st.clock = true ∧ r.fault = none)

/-! ## The end-to-end scenario -/

/-- The seed of the scenario. -/
def seedUrl : CStr := "http://site.test".toList

/-- The page `/ok` of the scenario. -/
def okUrl : CStr := "http://site.test/ok".toList

/-- The page `/missing` of the scenario. -/
def missingUrl : CStr := "http://site.test/missing".toList

/-- The link of the scenario that leaves the site. -/
def externalUrl : CStr := "http://external.test/x".toList

/-- A seed page with the three anchors of the scenario. -/
def seedHtml : List Char :=
  ("<html><body><a href=\"/ok\">ok</a> <a class=\"x\" href='/missing'>gone</a>" ++
    "<A HREF=\"http://external.test/x\">away</A></body></html>").toList

/-- A site for the scenario: the seed page is `seedHtml`, the two pages of the
site have no anchor, `/ok` answers 200, every other probe answers 404, and the
stop flag is set from its `stopAt`-th read on (`none`: never). -/
def scenarioSite (stopAt : Option Nat) : Site where
  fetch_remote := fun u =>
    if u = seedUrl then some seedHtml
    else if u = okUrl then some "<html>fine</html>".toList
    else if u = missingUrl then some "<html>not found</html>".toList
    else none
  check_link := fun u => if u = okUrl then 200 else 404
  stop_flag := fun k =>
    match stopAt with
    | some n => decide (n ≤ k)
    | none => false

/-! ## The candidates of a page -/

/-- A site whose seed page is `longHrefHtml`; the stop flag is never set. -/
def longHrefSite : Site where
  fetch_remote := fun u => if u = exampleBase then some longHrefHtml else none
  check_link := fun _ => 200
  stop_flag := fun _ => false

/-! ## String routines -/

theorem strstr_isSome_iff (hay needle : CStr) :
    (strstr hay needle).isSome = true ↔ needle <:+: hay := by
  induction hay with
  | nil =>
    cases needle <;> simp [strstr]
  | cons c cs ih =>
    rw [strstr, List.infix_cons_iff]
    by_cases h : needle.isPrefixOf (c :: cs) = true
    · have h2 : needle <+: c :: cs := List.isPrefixOf_iff_prefix.mp h
      simp [h, h2]
    · have h2 : ¬ needle <+: c :: cs := fun hp => h (List.isPrefixOf_iff_prefix.mpr hp)
      simp [h, h2, ih]

theorem strstr_prefix_found (hay needle : CStr) (h : needle <+: hay) :
    (strstr hay needle).isSome = true :=
  (strstr_isSome_iff hay needle).mpr h.isInfix

theorem char_toNat_sub_ne_zero (a b : Char) (h : a ≠ b) : (a.toNat : Int) - b.toNat ≠ 0 := by
  intro h0
  apply h
  have h1 : a.toNat = b.toNat := by omega
  calc a = Char.ofNat a.toNat := (Char.ofNat_toNat a).symm
    _ = Char.ofNat b.toNat := by rw [h1]
    _ = b := Char.ofNat_toNat b

theorem char_toNat_ne_zero (a : Char) (h : a ≠ NUL) : (a.toNat : Int) ≠ 0 := by
  have := char_toNat_sub_ne_zero a NUL h
  simpa [NUL] using this

theorem strncmp_eq_zero_iff (base : CStr) (hb : NUL ∉ base) (url : CStr) :
    strncmp base url base.length = 0 ↔ base <+: url := by
  induction base generalizing url with
  | nil => simp [strncmp]
  | cons a as ih =>
    have ha : a ≠ NUL := fun h => hb (by simp [h])
    have has : NUL ∉ as := fun h => hb (List.mem_cons_of_mem _ h)
    cases url with
    | nil =>
      simp only [List.length_cons, strncmp, List.prefix_nil]
      constructor
      · intro h; exact absurd h (char_toNat_ne_zero a ha)
      · intro h; cases h
    | cons b bs =>
      simp only [List.length_cons, strncmp, List.cons_prefix_cons]
      by_cases hab : a = b
      · subst hab
        simp [ha, ih has bs]
      · simp only [hab, if_false, false_and, iff_false]
        exact char_toNat_sub_ne_zero a b hab

theorem is_same_domain_iff (base url : CStr) (hb : NUL ∉ base) :
    is_same_domain base url = true ↔ base <+: url := by
  unfold is_same_domain strlen
  rw [beq_iff_eq]
  exact strncmp_eq_zero_iff base hb url

/-! ## Claims on `is_same_domain` and `normalize_url` -/

/-- C3: for every origin without a NUL character (every C string) and every
url, `is_same_domain origin url` is true exactly when `origin` is a prefix of
`url`; a url shorter than the origin is rejected, the empty origin accepts
every url, and the three examples of the specification evaluate as stated. -/
theorem is_same_domain_correct (origin url : CStr) (h : NUL ∉ origin) :
    (is_same_domain origin url = true ↔ origin <+: url) ∧
    (url.length < origin.length → is_same_domain origin url = false) ∧
    is_same_domain [] url = true ∧
    is_same_domain "http://a.com".toList "http://a.com/x".toList = true ∧
    is_same_domain "http://a.com".toList "http://other.com".toList = false ∧
    is_same_domain "http://example.com".toList "http://example.com.evil.org".toList = true := by
  refine ⟨is_same_domain_iff origin url h, ?_, ?_, by decide, by decide, by decide⟩
  · intro hlen
    cases hsd : is_same_domain origin url with
    | false => rfl
    | true =>
      have hp := (is_same_domain_iff origin url h).mp hsd
      have := hp.length_le
      omega
  · simp [is_same_domain, strlen, strncmp]

theorem is_same_domain_correct_witness :
    NUL ∉ "http://a.com".toList ∧
    ((is_same_domain "http://a.com".toList "http://a.com/x".toList = true ↔
      "http://a.com".toList <+: "http://a.com/x".toList)) := by
  refine ⟨by decide, ?_⟩
  exact (is_same_domain_correct "http://a.com".toList "http://a.com/x".toList (by decide)).1

/-- C6: an href that has `http://` or `https://` as a prefix is returned
unchanged, whatever the base. -/
theorem normalize_url_absolute (base href : CStr)
    (h : "http://".toList <+: href ∨ "https://".toList <+: href) :
    normalize_url base href = some href := by
  unfold normalize_url
  rcases h with h | h
  · simp only [strstr_prefix_found href _ h, Bool.true_or, if_true]
  · simp only [strstr_prefix_found href _ h, Bool.or_true, if_true]

theorem normalize_url_absolute_witness :
    normalize_url "http://a.com".toList "http://b.com/x".toList = some "http://b.com/x".toList :=
  normalize_url_absolute "http://a.com".toList "http://b.com/x".toList
    (Or.inl (List.isPrefixOf_iff_prefix.mp (by decide)))

/-- C4, at the failing input: the href `/redirect?to=http://b.com` begins with
`/`, and `normalize_url` returns it unchanged (the `strstr` of rule 1 finds
`http://` inside it) where rule 2 asks for `base ++ href`; the result is not
in the scope of the base, so the link is never probed. -/
theorem normalize_url_root_relative_with_scheme :
    "/redirect?to=http://b.com".toList.head? = some '/' ∧
    normalize_url "http://a.com".toList "/redirect?to=http://b.com".toList
      = some "/redirect?to=http://b.com".toList ∧
    normalize_url "http://a.com".toList "/redirect?to=http://b.com".toList
      ≠ some ("http://a.com".toList ++ "/redirect?to=http://b.com".toList) ∧
    normalize_spec "http://a.com".toList "/redirect?to=http://b.com".toList
      = some ("http://a.com".toList ++ "/redirect?to=http://b.com".toList) ∧
    is_same_domain "http://a.com".toList "/redirect?to=http://b.com".toList = false := by
  decide

/-- C5, at the failing input: the href `page?next=http://b.com` begins with
none of `http://`, `https://` and `/`, and `normalize_url` returns it unchanged
(the `strstr` of rule 1 finds `http://` inside it) where rule 3 asks for
`none`. -/
theorem normalize_url_relative_with_scheme :
    "http://".toList.isPrefixOf "page?next=http://b.com".toList = false ∧
    "https://".toList.isPrefixOf "page?next=http://b.com".toList = false ∧
    "page?next=http://b.com".toList.head? ≠ some '/' ∧
    normalize_url "http://a.com".toList "page?next=http://b.com".toList
      = some "page?next=http://b.com".toList ∧
    normalize_spec "http://a.com".toList "page?next=http://b.com".toList = none := by
  decide

/-- Rule 2 of the normalizer as the code has it: an href that begins with `/`
and holds neither `http://` nor `https://` anywhere gives `base ++ href`. -/
theorem normalize_url_root_relative (base href : CStr) (h : href.head? = some '/')
    (h1 : ¬ "http://".toList <:+: href) (h2 : ¬ "https://".toList <:+: href) :
    normalize_url base href = some (base ++ href) := by
  have e1 : (strstr href "http://".toList).isSome = false := by
    rw [Bool.eq_false_iff]; exact fun hs => h1 ((strstr_isSome_iff _ _).mp hs)
  have e2 : (strstr href "https://".toList).isSome = false := by
    rw [Bool.eq_false_iff]; exact fun hs => h2 ((strstr_isSome_iff _ _).mp hs)
  simp only [normalize_url, e1, e2, h, Bool.or_self, Bool.false_eq_true, if_false, if_true]

/-- Rule 3 of the normalizer as the code has it: an href that does not begin
with `/` and holds neither `http://` nor `https://` anywhere gives `none`. -/
theorem normalize_url_dropped (base href : CStr) (h : href.head? ≠ some '/')
    (h1 : ¬ "http://".toList <:+: href) (h2 : ¬ "https://".toList <:+: href) :
    normalize_url base href = none := by
  have e1 : (strstr href "http://".toList).isSome = false := by
    rw [Bool.eq_false_iff]; exact fun hs => h1 ((strstr_isSome_iff _ _).mp hs)
  have e2 : (strstr href "https://".toList).isSome = false := by
    rw [Bool.eq_false_iff]; exact fun hs => h2 ((strstr_isSome_iff _ _).mp hs)
  simp only [normalize_url, e1, e2, h, Bool.or_self, Bool.false_eq_true, if_false, if_true]

/-- The code and the specification's normalizer agree on every href that holds
no `http://` and no `https://` after its first character. -/
theorem normalize_url_eq_spec (base href : CStr)
    (h1 : ¬ "http://".toList <:+: href.tail) (h2 : ¬ "https://".toList <:+: href.tail) :
    normalize_url base href = normalize_spec base href := by
  cases href with
  | nil => rfl
  | cons c cs =>
    simp only [List.tail_cons] at h1 h2
    have e1 : (strstr cs "http://".toList).isSome = false := by
      rw [Bool.eq_false_iff]; exact fun hs => h1 ((strstr_isSome_iff _ _).mp hs)
    have e2 : (strstr cs "https://".toList).isSome = false := by
      rw [Bool.eq_false_iff]; exact fun hs => h2 ((strstr_isSome_iff _ _).mp hs)
    unfold normalize_url normalize_spec
    rw [strstr, strstr]
    cases p1 : "http://".toList.isPrefixOf (c :: cs) <;>
    cases p2 : "https://".toList.isPrefixOf (c :: cs) <;>
    simp only [e1, e2, Bool.or_self, Bool.false_eq_true, if_false, if_true, Option.isSome_some,
      Bool.or_true, Bool.true_or]

/-! ## The offsets reported by `regexec` -/

theorem matchHref_bound (t : List Char) (len : Nat) (h : matchHref t = some len) :
    0 < len ∧ 6 + len + 1 ≤ t.length := by
  unfold matchHref at h
  split at h
  · rename_i hh r e f eq q rest
    split at h
    · simp only [] at h
      split at h
      · rename_i q2 tl hd
        split at h
        · rename_i hc
          cases h
          have hlt : (List.takeWhile (fun c => !isQuote c) rest).length < rest.length := by
            by_contra hge
            rw [List.drop_of_length_le (by omega)] at hd
            cases hd
          simp only [Bool.and_eq_true, decide_eq_true_eq] at hc
          refine ⟨hc.2, ?_⟩
          simp only [List.length_cons]
          omega
        · cases h
      · cases h
    · cases h
  · cases h

theorem scanAttr_bound (cs : List Char) (off o len : Nat) (h : scanAttr cs off = some (o, len)) :
    off ≤ o ∧ 0 < len ∧ o + 6 + len + 1 ≤ off + cs.length := by
  induction cs generalizing off with
  | nil => simp [scanAttr] at h
  | cons c cs ih =>
    rw [scanAttr] at h
    split at h
    · rename_i r hr
      cases h
      split at hr
      · cases hr
      · have := ih _ hr
        simp only [List.length_cons]
        omega
    · cases hm : matchHref (c :: cs) with
      | none => rw [hm] at h; cases h
      | some l =>
        rw [hm] at h
        simp only [Option.map_some', Option.some.injEq, Prod.mk.injEq] at h
        obtain ⟨rfl, rfl⟩ := h
        have := matchHref_bound _ _ hm
        omega

theorem matchAt_bound (t : List Char) (o len : Nat) (h : matchAt t = some (o, len)) :
    3 ≤ o ∧ 0 < len ∧ o + 6 + len + 1 ≤ t.length := by
  unfold matchAt at h
  split at h
  · split at h
    · have := scanAttr_bound _ _ _ _ h
      simp only [List.length_cons]
      omega
    · cases h
  · cases h

theorem regexecFrom_bound (cursor : List Char) (p : Nat) (m0 m1 : regmatch_t)
    (h : regexecFrom cursor p = some (m0, m1)) :
    p ≤ m0.rm_so ∧ m0.rm_so < m1.rm_so ∧ m1.rm_so < m1.rm_eo ∧ m1.rm_eo < m0.rm_eo ∧
      m0.rm_eo ≤ p + cursor.length := by
  induction cursor generalizing p with
  | nil => simp [regexecFrom] at h
  | cons c cs ih =>
    rw [regexecFrom] at h
    split at h
    · rename_i o len hm
      cases h
      have := matchAt_bound _ _ _ hm
      simp only [List.length_cons] at this ⊢
      omega
    · have := ih _ h
      simp only [List.length_cons]
      omega

theorem regexec_bound (cursor : List Char) (m0 m1 : regmatch_t)
    (h : regexec cursor = some (m0, m1)) :
    m0.rm_so < m1.rm_so ∧ m1.rm_so < m1.rm_eo ∧ m1.rm_eo < m0.rm_eo ∧
      m0.rm_eo ≤ cursor.length := by
  have := regexecFrom_bound cursor 0 m0 m1 h
  omega

theorem matchedValue_length (cursor : List Char) (m0 m1 : regmatch_t)
    (h : regexec cursor = some (m0, m1)) :
    (matchedValue cursor m1).length = m1.rm_eo - m1.rm_so := by
  have := regexec_bound cursor m0 m1 h
  simp only [matchedValue, List.length_take, List.length_drop]
  omega

/-! ## Pages with known matches -/

theorem matchHref_head (c : Char) (t : List Char) (h : eqIgnoreCase c 'h' = false) :
    matchHref (c :: t) = none := by
  unfold matchHref
  split
  · rename_i hh r e f eq q rest heq
    simp only [List.cons.injEq] at heq
    obtain ⟨rfl, _⟩ := heq
    simp [h]
  · rfl

theorem scanAttr_skip (c : Char) (cs : List Char) (off : Nat) (hc : (c == '>') = false)
    (hh : eqIgnoreCase c 'h' = false) : scanAttr (c :: cs) off = scanAttr cs (off + 1) := by
  rw [scanAttr, matchHref_head c cs hh]
  simp only [hc, Bool.false_eq_true, if_false, Option.map_none']
  cases scanAttr cs (off + 1) <;> rfl

theorem scanAttr_close (cs : List Char) (off : Nat) : scanAttr ('>' :: cs) off = none := by
  rw [scanAttr, matchHref_head '>' cs (by decide)]
  rfl

theorem scanAttr_here (c : Char) (cs : List Char) (off : Nat) (hc : (c == '>') = false)
    (hn : scanAttr cs (off + 1) = none) :
    scanAttr (c :: cs) off = (matchHref (c :: cs)).map (fun len => (off, len)) := by
  rw [scanAttr]
  simp only [hc, Bool.false_eq_true, if_false, hn]

theorem strncpy_checked_eq (dst : List Char) (src : CStr) (n : Nat)
    (hd : n ≤ dst.length) (hs : n ≤ src.length) :
    strncpy_checked dst src n = some (src.take n ++ dst.drop n) := by
  induction n generalizing dst src with
  | zero => cases dst <;> cases src <;> simp [strncpy_checked]
  | succ n ih =>
    cases dst with
    | nil => simp at hd
    | cons d ds =>
      cases src with
      | nil => simp at hs
      | cons c cs =>
        simp only [List.length_cons, Nat.add_le_add_iff_right] at hd hs
        simp [strncpy_checked, ih ds cs hd hs]

theorem strncpy_checked_none (dst : List Char) (src : CStr) (n : Nat) (hd : dst.length < n) :
    strncpy_checked dst src n = none := by
  induction n generalizing dst src with
  | zero => omega
  | succ n ih =>
    cases dst with
    | nil => cases src <;> rfl
    | cons d ds =>
      simp only [List.length_cons, Nat.add_lt_add_iff_right] at hd
      cases src with
      | nil => simp [strncpy_checked, ih ds [] hd]
      | cons c cs => simp [strncpy_checked, ih ds cs hd]

theorem scanAttr_replicate (n : Nat) (t : List Char) (off : Nat) :
    scanAttr (List.replicate n 'a' ++ t) off = scanAttr t (off + n) := by
  induction n generalizing off with
  | zero => rfl
  | succ n ih =>
    rw [List.replicate_succ, List.cons_append, scanAttr_skip _ _ _ (by decide) (by decide), ih]
    congr 1
    omega

theorem regexec_longHref (n : Nat) (hn : 0 < n) (t : List Char) :
    regexec ("<a href=\"".toList ++ (List.replicate n 'a' ++ '"' :: '>' :: t)) =
      some (⟨0, 9 + n + 1⟩, ⟨9, 9 + n⟩) := by
  show regexec ('<' :: 'a' :: ' ' :: 'h' :: 'r' :: 'e' :: 'f' :: '=' :: '"' ::
    (List.replicate n 'a' ++ '"' :: '>' :: t)) = _
  have hs : scanAttr ('r' :: 'e' :: 'f' :: '=' :: '"' ::
      (List.replicate n 'a' ++ '"' :: '>' :: t)) (3 + 1) = none := by
    repeat rw [scanAttr_skip _ _ _ (by decide) (by decide)]
    rw [scanAttr_replicate, scanAttr_skip _ _ _ (by decide) (by decide)]
    exact scanAttr_close _ _
  have htw : (List.replicate n 'a' ++ '"' :: '>' :: t).takeWhile (fun c => !isQuote c) =
      List.replicate n 'a' := by
    rw [List.takeWhile_append_of_pos
      (by intro a ha; rw [List.eq_of_mem_replicate ha]; decide),
      List.takeWhile_cons_of_neg (by decide)]
    simp
  have hm : matchHref ('h' :: 'r' :: 'e' :: 'f' :: '=' :: '"' ::
      (List.replicate n 'a' ++ '"' :: '>' :: t)) = some n := by
    rw [matchHref]
    simp only [show (eqIgnoreCase 'h' 'h' && eqIgnoreCase 'r' 'r' && eqIgnoreCase 'e' 'e' &&
      eqIgnoreCase 'f' 'f' && '=' == '=' && isQuote '"') = true by decide, if_true, htw,
      List.length_replicate]
    rw [List.drop_left' (by simp)]
    simp only [show isQuote '"' = true by decide, Bool.true_and, decide_eq_true_eq, hn, if_true]
  unfold regexec
  rw [regexecFrom, matchAt]
  simp only [show ('<' == '<' && eqIgnoreCase 'a' 'a' && !(' ' == '>')) = true by decide, if_true]
  rw [scanAttr_here _ _ _ (by decide) hs, hm]
  simp only [Option.map_some', Option.some.injEq, Prod.mk.injEq, regmatch_t.mk.injEq]

theorem store_none {α : Type} (buf : List α) (i : Nat) (v : α) (h : buf.length ≤ i) :
    store buf i v = none := by
  unfold store
  rw [if_neg (by omega)]

theorem store_some {α : Type} (buf : List α) (i : Nat) (v : α) (h : i < buf.length) :
    store buf i v = some (buf.set i v) := by
  unfold store
  rw [if_pos h]

theorem extract_loop_overflow (maxLinks hrefSize : Nat) (base : CStr) (fuel : Nat)
    (cursor : List Char) (links : List (Option CStr)) (count : Nat) (m0 m1 : regmatch_t)
    (hc : count < maxLinks) (hre : regexec cursor = some (m0, m1))
    (hlen : hrefSize ≤ m1.rm_eo - m1.rm_so) :
    extract_loop maxLinks hrefSize base (fuel + 1) cursor links count =
      Except.error (Fault.href hrefSize) := by
  have hb := regexec_bound cursor m0 m1 hre
  rw [extract_loop, if_pos hc, hre]
  simp only []
  by_cases heq : m1.rm_eo - m1.rm_so = hrefSize
  · rw [strncpy_checked_eq _ _ _ (by rw [List.length_replicate]; omega)
      (by rw [List.length_drop]; omega)]
    simp only []
    rw [store_none _ _ _ (by
      rw [List.length_append, List.length_take, List.length_drop, List.length_drop,
        List.length_replicate]
      omega)]
    simp only [heq]
  · rw [strncpy_checked_none _ _ _ (by rw [List.length_replicate]; omega)]

/-- C10, at the failing input: a page with one anchor whose href has 1024
characters.  The pattern captures the 1024 characters (`len = 1024`), the copy
fills `href[0 .. 1023]`, and the terminator is written to `href[1024]`, one
past the end of `char href[1024]`: the bounds-checked loop stops on that
write. -/
theorem extract_links_href_overflow :
    regexec longHrefHtml = some (⟨0, 1034⟩, ⟨9, 1033⟩) ∧
    extract_links longHrefHtml exampleBase = Except.error (Fault.href 1024) := by
  have hre : regexec longHrefHtml = some (⟨0, 1034⟩, ⟨9, 1033⟩) :=
    regexec_longHref 1024 (by decide) []
  exact ⟨hre, extract_loop_overflow MAX_LINKS HREF_SIZE exampleBase _ _ _ 0 _ _
    (by decide) hre (by decide)⟩

/-! ## What `extract_links` leaves in its arrays -/

theorem takeWhile_append_stop (p : Char → Bool) (pre rs : List Char) (x : Char)
    (hx : p x = false) : (pre ++ x :: rs).takeWhile p = pre.takeWhile p := by
  induction pre with
  | nil => simp [List.takeWhile_cons, hx]
  | cons c cs ih =>
    rw [List.cons_append, List.takeWhile_cons, List.takeWhile_cons, ih]

theorem cstrOf_terminated (pre rest : List Char) (hrest : rest ≠ []) :
    cstrOf ((pre ++ rest).set pre.length NUL) = cstrOf pre := by
  cases rest with
  | nil => exact absurd rfl hrest
  | cons r rs =>
    rw [List.set_append_right _ _ (Nat.le_refl _), Nat.sub_self, List.set_cons_zero]
    exact takeWhile_append_stop _ pre rs NUL (by simp)

theorem cstrOf_eq_self (v : List Char) (h : NUL ∉ v) : cstrOf v = v := by
  unfold cstrOf
  rw [List.takeWhile_eq_self_iff]
  intro a ha
  simp only [bne_iff_ne, ne_eq]
  intro h0
  exact h (h0 ▸ ha)

theorem extractOutcome_congr (maxLinks hrefSize : Nat) (expected expected2 : List CStr)
    (hrefs hrefs2 : List CStr) (heq : expected = expected2) (hsub : ∀ v ∈ hrefs, v ∈ hrefs2)
    (r : Except Fault (List (Option CStr) × Nat))
    (h : ExtractOutcome maxLinks hrefSize expected hrefs r) :
    ExtractOutcome maxLinks hrefSize expected2 hrefs2 r := by
  subst heq
  cases r with
  | ok p => exact h
  | error f =>
    cases f with
    | fuel => exact h
    | links i => exact h
    | unset => exact h
    | href i =>
      obtain ⟨h1, v, hv, h2⟩ := h
      exact ⟨h1, v, hsub v hv, h2⟩

theorem extract_loop_sound (maxLinks hrefSize : Nat) (base : CStr) (fuel : Nat)
    (cursor : List Char) (arr : List (Option CStr)) (count : Nat) (ls : List CStr)
    (hfuel : cursor.length < fuel) (hagree : ArraysAgree maxLinks arr count ls) :
    ExtractOutcome maxLinks hrefSize
      ((ls ++ (hrefsFrom fuel cursor).filterMap (fun v => normalize_url base (cstrOf v))).take
        maxLinks)
      (hrefsFrom fuel cursor) (extract_loop maxLinks hrefSize base fuel cursor arr count) := by
  induction fuel generalizing cursor arr count ls with
  | zero => omega
  | succ fuel ih =>
    obtain ⟨hcount, hle, harr, htake⟩ := hagree
    by_cases hc : count < maxLinks
    · cases hre : regexec cursor with
      | none =>
        rw [extract_loop, if_pos hc, hre, hrefsFrom, hre]
        simp only [List.filterMap_nil, List.append_nil]
        rw [List.take_of_length_le (by omega)]
        exact ⟨hcount, hle, harr, htake⟩
      | some m =>
        obtain ⟨m0, m1⟩ := m
        have hb := regexec_bound cursor m0 m1 hre
        have hcaplen := matchedValue_length cursor m0 m1 hre
        by_cases hlen : m1.rm_eo - m1.rm_so < hrefSize
        · -- the value fits in `href`
          have hfuel2 : (cursor.drop m0.rm_eo).length < fuel := by
            rw [List.length_drop]; omega
          have hhref : cstrOf ((List.take (m1.rm_eo - m1.rm_so) (List.drop m1.rm_so cursor) ++
              List.drop (m1.rm_eo - m1.rm_so) (List.replicate hrefSize NUL)).set
                (m1.rm_eo - m1.rm_so) NUL) = cstrOf (matchedValue cursor m1) := by
            have := cstrOf_terminated (matchedValue cursor m1)
              (List.drop (m1.rm_eo - m1.rm_so) (List.replicate hrefSize NUL))
              (by
                intro h0
                have := congrArg List.length h0
                rw [List.length_drop, List.length_replicate] at this
                simp at this
                omega)
            rw [hcaplen] at this
            exact this
          rw [extract_loop, if_pos hc, hre, hrefsFrom, hre]
          simp only []
          rw [strncpy_checked_eq _ _ _ (by rw [List.length_replicate]; omega)
            (by rw [List.length_drop]; omega)]
          simp only []
          rw [store_some _ _ _ (by
            rw [List.length_append, List.length_take, List.length_drop, List.length_drop,
              List.length_replicate]
            omega)]
          simp only [hhref]
          cases hn : normalize_url base (cstrOf (matchedValue cursor m1)) with
          | none =>
            simp only []
            exact extractOutcome_congr _ _ _ _ _ _
              (by rw [List.filterMap_cons_none (f := fun v => normalize_url base (cstrOf v)) hn])
              (fun v hv => List.mem_cons_of_mem _ hv) _
              (ih _ arr count ls hfuel2 ⟨hcount, hle, harr, htake⟩)
          | some full =>
            simp only []
            rw [store_some _ _ _ (by omega)]
            simp only []
            refine extractOutcome_congr _ _ _ _ _ _
              (by
                rw [List.filterMap_cons_some (f := fun v => normalize_url base (cstrOf v)) hn,
                  List.append_assoc]
                rfl)
              (fun v hv => List.mem_cons_of_mem _ hv) _
              (ih _ (arr.set count (some full)) (count + 1) (ls ++ [full]) hfuel2
                ⟨by simp [hcount], by omega, by simp [harr], ?_⟩)
            rw [List.take_succ, List.set_take, List.getElem?_set_self (by omega), htake,
              List.set_eq_of_length_le (by rw [List.length_map]; omega)]
            simp
        · -- the value does not fit
          rw [extract_loop_overflow maxLinks hrefSize base fuel cursor arr count m0 m1 hc
            hre (by omega)]
          refine ⟨rfl, matchedValue cursor m1, ?_, by omega⟩
          rw [hrefsFrom, hre]
          exact List.mem_cons_self _ _
    · rw [extract_loop, if_neg hc]
      rw [List.take_append_of_le_length (by omega), List.take_of_length_le (by omega)]
      exact ⟨hcount, hle, harr, htake⟩

theorem extract_links_sound (html : List Char) (base : CStr) :
    ExtractOutcome MAX_LINKS HREF_SIZE
      (((allMatches html).filterMap (fun v => normalize_url base (cstrOf v))).take MAX_LINKS)
      (allMatches html) (extract_links html base) := by
  have h := extract_loop_sound MAX_LINKS HREF_SIZE base (html.length + 1) html
    (List.replicate MAX_LINKS none) 0 [] (by omega)
    ⟨rfl, Nat.zero_le _, List.length_replicate _ _, rfl⟩
  rw [List.nil_append] at h
  exact h

theorem filterMap_cstrOf (base : CStr) (vs : List CStr) (h : ∀ v ∈ vs, NUL ∉ v) :
    vs.filterMap (fun v => normalize_url base (cstrOf v)) = vs.filterMap (normalize_url base) := by
  induction vs with
  | nil => rfl
  | cons v vs ih =>
    have hv : cstrOf v = v := cstrOf_eq_self v (h v (List.mem_cons_self _ _))
    have ih2 := ih (fun w hw => h w (List.mem_cons_of_mem _ hw))
    simp only [List.filterMap_cons, hv, ih2]

/-- The outcome of `extract_links` on any page: the arrays hold some list of
links, or the run stops on a write at `href[1024]` for a matched value of 1024
characters or more. -/
theorem extract_links_cases (html : List Char) (base : CStr) :
    (∃ arr count ls, extract_links html base = Except.ok (arr, count) ∧
      ArraysAgree MAX_LINKS arr count ls ∧
      ((∀ v ∈ allMatches html, NUL ∉ v) → ls = pageLinks html base)) ∨
    (extract_links html base = Except.error (Fault.href HREF_SIZE) ∧
      ∃ v ∈ allMatches html, HREF_SIZE ≤ v.length) := by
  have h := extract_links_sound html base
  cases hr : extract_links html base with
  | ok p =>
    obtain ⟨arr, count⟩ := p
    rw [hr] at h
    refine Or.inl ⟨arr, count, _, rfl, h, ?_⟩
    intro hnul
    rw [filterMap_cstrOf base _ hnul]
    rfl
  | error f =>
    rw [hr] at h
    cases f with
    | fuel => exact absurd h id
    | links i => exact absurd h id
    | unset => exact absurd h id
    | href i =>
      obtain ⟨rfl, hlong⟩ := h
      exact Or.inr ⟨rfl, hlong⟩

theorem extract_links_ok (html : List Char) (base : CStr) (hshort : ShortHrefs html) :
    ∃ arr count ls, extract_links html base = Except.ok (arr, count) ∧
      ArraysAgree MAX_LINKS arr count ls ∧
      ((∀ v ∈ allMatches html, NUL ∉ v) → ls = pageLinks html base) := by
  rcases extract_links_cases html base with h | ⟨_, v, hv, hlong⟩
  · exact h
  · have := hshort v hv
    omega

theorem contains_eq_true_iff (l : List CStr) (a : CStr) : l.contains a = true ↔ a ∈ l := by
  simp [List.contains]

theorem contains_eq_false_iff (l : List CStr) (a : CStr) : l.contains a = false ↔ a ∉ l := by
  rw [← contains_eq_true_iff, Bool.not_eq_true]

theorem linkLoop_induct (S : Site) (base : CStr) (call : CStr → St → Run)
    (P : List (Option CStr) → St → Run → Prop)
    (hnil : ∀ st, P [] st ⟨st, [], none⟩)
    (hstop : ∀ entry rest st, S.stop_flag st.clock = true →
      P (entry :: rest) st ⟨⟨st.clock + 1, st.visited⟩, [Event.check true], none⟩)
    (hunset : ∀ rest st, S.stop_flag st.clock = false →
      P (none :: rest) st ⟨⟨st.clock + 1, st.visited⟩, [Event.check false], some Fault.unset⟩)
    (hout : ∀ link rest st, S.stop_flag st.clock = false → is_same_domain base link = false →
      ∀ r, r = linkLoop S base call rest ⟨st.clock + 1, st.visited⟩ →
      P rest ⟨st.clock + 1, st.visited⟩ r →
      P (some link :: rest) st ⟨r.st, Event.check false :: r.evs, r.fault⟩)
    (hfault : ∀ link rest st, S.stop_flag st.clock = false → is_same_domain base link = true →
      ∀ r f, r = call link ⟨st.clock + 1, st.visited⟩ → r.fault = some f →
      P (some link :: rest) st ⟨r.st, probeEvents S link ++ r.evs, some f⟩)
    (hok : ∀ link rest st, S.stop_flag st.clock = false → is_same_domain base link = true →
      ∀ r r2, r = call link ⟨st.clock + 1, st.visited⟩ → r.fault = none →
      r2 = linkLoop S base call rest r.st → P rest r.st r2 →
      P (some link :: rest) st ⟨r2.st, probeEvents S link ++ r.evs ++ r2.evs, r2.fault⟩)
    (entries : List (Option CStr)) (st : St) :
    P entries st (linkLoop S base call entries st) := by
  induction entries generalizing st with
  | nil => exact hnil st
  | cons entry rest ih =>
    unfold linkLoop
    cases hb : S.stop_flag st.clock with
    | true => exact hstop entry rest st hb
    | false =>
      simp only [Bool.false_eq_true, if_false]
      cases entry with
      | none => exact hunset rest st hb
      | some link =>
        simp only []
        cases hd : is_same_domain base link with
        | false =>
          simp only [Bool.not_false, if_true]
          exact hout link rest st hb hd _ rfl (ih _)
        | true =>
          simp only [Bool.not_true, Bool.false_eq_true, if_false]
          cases hf : (call link ⟨st.clock + 1, st.visited⟩).fault with
          | some f => exact hfault link rest st hb hd _ f rfl hf
          | none => exact hok link rest st hb hd _ _ rfl hf rfl (ih _)

theorem dfs_cases (S : Site) (maxDepth : Nat) (base : CStr) (fuel : Nat) (url : CStr)
    (depth : Nat) (st : St) (P : Run → Prop)
    (hskip : (S.stop_flag st.clock = true ∨ maxDepth < depth ∨ url ∈ st.visited) →
      P ⟨⟨st.clock + 1, st.visited⟩, [Event.check (S.stop_flag st.clock)], none⟩)
    (hunreach : S.stop_flag st.clock = false → depth ≤ maxDepth → url ∉ st.visited →
      S.fetch_remote url = none →
      P ⟨⟨st.clock + 1, st.visited ++ [url]⟩, [Event.check false, Event.visit url,
        Event.fetch url depth, Event.emit (Finding.unreachable url)], none⟩)
    (hfault : S.stop_flag st.clock = false → depth ≤ maxDepth → url ∉ st.visited →
      ∀ html, S.fetch_remote url = some html →
      (∃ v ∈ allMatches html, HREF_SIZE ≤ v.length) →
      P ⟨⟨st.clock + 1, st.visited ++ [url]⟩, [Event.check false, Event.visit url,
        Event.fetch url depth], some (Fault.href HREF_SIZE)⟩)
    (hloop : S.stop_flag st.clock = false → depth ≤ maxDepth → url ∉ st.visited →
      ∀ html, S.fetch_remote url = some html →
      ∀ ls : List CStr, ls.length ≤ MAX_LINKS →
      ((∀ v ∈ allMatches html, NUL ∉ v) → ls = pageLinks html base) →
      ∀ r, r = linkLoop S base (fun link s => dfs S maxDepth base fuel link (depth + 1) s)
        (ls.map some) ⟨st.clock + 1, st.visited ++ [url]⟩ →
      P ⟨r.st, [Event.check false, Event.visit url, Event.fetch url depth] ++ r.evs,
        r.fault⟩) :
    P (dfs S maxDepth base (fuel + 1) url depth st) := by
  rw [dfs]
  by_cases hc : (S.stop_flag st.clock || decide (depth > maxDepth) ||
      st.visited.contains url) = true
  · simp only [hc, if_true]
    apply hskip
    simp only [Bool.or_eq_true, decide_eq_true_eq, contains_eq_true_iff] at hc
    rcases hc with (h | h) | h
    · exact Or.inl h
    · exact Or.inr (Or.inl h)
    · exact Or.inr (Or.inr h)
  · simp only [hc, Bool.false_eq_true, if_false]
    simp only [Bool.or_eq_true, decide_eq_true_eq, not_or, Bool.not_eq_true,
      contains_eq_false_iff] at hc
    obtain ⟨⟨hb, hd⟩, hv⟩ := hc
    have hd2 : depth ≤ maxDepth := by omega
    rw [hb]
    cases hfetch : S.fetch_remote url with
    | none => exact hunreach hb hd2 hv hfetch
    | some html =>
      simp only []
      rcases extract_links_cases html base with ⟨arr, count, ls, hex, hag, hls⟩ | ⟨hex, hlong⟩
      · rw [hex]
        simp only []
        obtain ⟨h1, h2, h3, h4⟩ := hag
        rw [h4]
        exact hloop hb hd2 hv html hfetch ls (by omega) hls _ rfl
      · rw [hex]
        exact hfault hb hd2 hv html hfetch hlong

/-! ## Reading events -/

@[simp] theorem fetched_nil : fetched [] = [] := rfl
@[simp] theorem fetched_append (a b : List Event) : fetched (a ++ b) = fetched a ++ fetched b := by
  simp [fetched]
@[simp] theorem fetched_check (b : Bool) (l : List Event) :
    fetched (Event.check b :: l) = fetched l := rfl
@[simp] theorem fetched_visit (u : CStr) (l : List Event) :
    fetched (Event.visit u :: l) = fetched l := rfl
@[simp] theorem fetched_fetch (u : CStr) (d : Nat) (l : List Event) :
    fetched (Event.fetch u d :: l) = u :: fetched l := rfl
@[simp] theorem fetched_probe (u : CStr) (l : List Event) :
    fetched (Event.probe u :: l) = fetched l := rfl
@[simp] theorem fetched_emit (f : Finding) (l : List Event) :
    fetched (Event.emit f :: l) = fetched l := rfl

@[simp] theorem visits_nil : visits [] = [] := rfl
@[simp] theorem visits_append (a b : List Event) : visits (a ++ b) = visits a ++ visits b := by
  simp [visits]
@[simp] theorem visits_check (b : Bool) (l : List Event) :
    visits (Event.check b :: l) = visits l := rfl
@[simp] theorem visits_visit (u : CStr) (l : List Event) :
    visits (Event.visit u :: l) = u :: visits l := rfl
@[simp] theorem visits_fetch (u : CStr) (d : Nat) (l : List Event) :
    visits (Event.fetch u d :: l) = visits l := rfl
@[simp] theorem visits_probe (u : CStr) (l : List Event) :
    visits (Event.probe u :: l) = visits l := rfl
@[simp] theorem visits_emit (f : Finding) (l : List Event) :
    visits (Event.emit f :: l) = visits l := rfl

@[simp] theorem probed_nil : probed [] = [] := rfl
@[simp] theorem probed_append (a b : List Event) : probed (a ++ b) = probed a ++ probed b := by
  simp [probed]
@[simp] theorem probed_check (b : Bool) (l : List Event) :
    probed (Event.check b :: l) = probed l := rfl
@[simp] theorem probed_visit (u : CStr) (l : List Event) :
    probed (Event.visit u :: l) = probed l := rfl
@[simp] theorem probed_fetch (u : CStr) (d : Nat) (l : List Event) :
    probed (Event.fetch u d :: l) = probed l := rfl
@[simp] theorem probed_probe (u : CStr) (l : List Event) :
    probed (Event.probe u :: l) = u :: probed l := rfl
@[simp] theorem probed_emit (f : Finding) (l : List Event) :
    probed (Event.emit f :: l) = probed l := rfl

@[simp] theorem findings_nil : findings [] = [] := rfl
@[simp] theorem findings_append (a b : List Event) :
    findings (a ++ b) = findings a ++ findings b := by
  simp [findings]
@[simp] theorem findings_check (b : Bool) (l : List Event) :
    findings (Event.check b :: l) = findings l := rfl
@[simp] theorem findings_visit (u : CStr) (l : List Event) :
    findings (Event.visit u :: l) = findings l := rfl
@[simp] theorem findings_fetch (u : CStr) (d : Nat) (l : List Event) :
    findings (Event.fetch u d :: l) = findings l := rfl
@[simp] theorem findings_probe (u : CStr) (l : List Event) :
    findings (Event.probe u :: l) = findings l := rfl
@[simp] theorem findings_emit (f : Finding) (l : List Event) :
    findings (Event.emit f :: l) = f :: findings l := rfl


theorem fetched_probeEvents (S : Site) (link : CStr) : fetched (probeEvents S link) = [] := by
  unfold probeEvents
  split <;> rfl

theorem visits_probeEvents (S : Site) (link : CStr) : visits (probeEvents S link) = [] := by
  unfold probeEvents
  split <;> rfl

theorem not_check_true_probeEvents (S : Site) (link : CStr) :
    ∀ x ∈ probeEvents S link, x ≠ Event.check true := by
  intro x hx
  unfold probeEvents at hx
  split at hx
  · simp only [List.cons_append, List.nil_append, List.mem_cons, List.not_mem_nil,
      or_false] at hx
    rcases hx with rfl | rfl | rfl <;> simp
  · simp only [List.append_nil, List.mem_cons, List.not_mem_nil, or_false] at hx
    rcases hx with rfl | rfl <;> simp

theorem linkLoop_faultOk (S : Site) (base : CStr) (call : CStr → St → Run)
    (hcall : ∀ l s, FaultOk (call l s)) (ls : List CStr) (st : St) :
    FaultOk (linkLoop S base call (ls.map some) st) := by
  have h := linkLoop_induct S base call
    (fun entries _ r => (∀ e ∈ entries, e ≠ none) → FaultOk r)
    (fun st _ => Or.inl rfl)
    (fun entry rest st _ _ => Or.inl rfl)
    (fun rest st _ hall => absurd rfl (hall none (List.mem_cons_self _ _)))
    (fun link rest st _ _ r _ ih hall => ih (fun e he => hall e (List.mem_cons_of_mem _ he)))
    (fun link rest st _ _ r f hr hf _ => by
      have := hcall link ⟨st.clock + 1, st.visited⟩
      rw [← hr] at this
      unfold FaultOk at this ⊢
      rw [hf] at this
      exact this)
    (fun link rest st _ _ r r2 _ _ _ ih hall =>
      ih (fun e he => hall e (List.mem_cons_of_mem _ he)))
    (ls.map some) st
  apply h
  intro e he
  rw [List.mem_map] at he
  obtain ⟨l, _, rfl⟩ := he
  simp

theorem dfs_faultOk (S : Site) (maxDepth : Nat) (base : CStr) (fuel : Nat) (url : CStr)
    (depth : Nat) (st : St) (hfuel : maxDepth + 2 ≤ fuel + depth) (hone : 0 < fuel) :
    FaultOk (dfs S maxDepth base fuel url depth st) := by
  induction fuel generalizing url depth st with
  | zero => omega
  | succ fuel ih =>
    apply dfs_cases S maxDepth base fuel url depth st FaultOk
    · intro _; exact Or.inl rfl
    · intro _ _ _ _; exact Or.inl rfl
    · intro _ _ _ html _ _; exact Or.inr rfl
    · intro _ hd _ html _ ls _ _ r hr
      have := linkLoop_faultOk S base
        (fun link s => dfs S maxDepth base fuel link (depth + 1) s)
        (fun l s => ih l (depth + 1) s (by omega) (by omega)) ls
        ⟨st.clock + 1, st.visited ++ [url]⟩
      rw [← hr] at this
      exact this

theorem linkLoop_noFault (S : Site) (base : CStr) (call : CStr → St → Run)
    (hcall : ∀ l s, (call l s).fault = none) (ls : List CStr) (st : St) :
    (linkLoop S base call (ls.map some) st).fault = none := by
  have h := linkLoop_induct S base call
    (fun entries _ r => (∀ e ∈ entries, e ≠ none) → r.fault = none)
    (fun st _ => rfl)
    (fun entry rest st _ _ => rfl)
    (fun rest st _ hall => absurd rfl (hall none (List.mem_cons_self _ _)))
    (fun link rest st _ _ r _ ih hall => ih (fun e he => hall e (List.mem_cons_of_mem _ he)))
    (fun link rest st _ _ r f hr hf _ => by
      have := hcall link ⟨st.clock + 1, st.visited⟩
      rw [← hr, hf] at this
      cases this)
    (fun link rest st _ _ r r2 _ _ _ ih hall =>
      ih (fun e he => hall e (List.mem_cons_of_mem _ he)))
    (ls.map some) st
  apply h
  intro e he
  rw [List.mem_map] at he
  obtain ⟨l, _, rfl⟩ := he
  simp

theorem dfs_noFault (S : Site) (hsafe : SafeSite S) (maxDepth : Nat) (base : CStr) (fuel : Nat)
    (url : CStr) (depth : Nat) (st : St) (hfuel : maxDepth + 2 ≤ fuel + depth)
    (hone : 0 < fuel) : (dfs S maxDepth base fuel url depth st).fault = none := by
  induction fuel generalizing url depth st with
  | zero => omega
  | succ fuel ih =>
    apply dfs_cases S maxDepth base fuel url depth st (fun r => r.fault = none)
    · intro _; rfl
    · intro _ _ _ _; rfl
    · intro _ _ _ html hfetch hlong
      obtain ⟨v, hv, hl⟩ := hlong
      have := hsafe url html hfetch v hv
      omega
    · intro _ hd _ html _ ls _ _ r hr
      rw [hr]
      exact linkLoop_noFault S base _
        (fun l s => ih l (depth + 1) s (by omega) (by omega)) ls _

theorem scan_faultOk (S : Site) (maxDepth : Nat) (input : CStr) :
    FaultOk (scan S maxDepth input) := by
  have h := dfs_faultOk S maxDepth input (maxDepth + 2) input 0 ⟨0, []⟩ (by omega) (by omega)
  unfold scan
  simp only []
  cases hf : (dfs S maxDepth input (maxDepth + 2) input 0 ⟨0, []⟩).fault with
  | none => exact Or.inl rfl
  | some f =>
    unfold FaultOk at h ⊢
    rw [hf] at h
    exact h

theorem scan_noFault (S : Site) (hsafe : SafeSite S) (maxDepth : Nat) (input : CStr) :
    (scan S maxDepth input).fault = none := by
  have h := dfs_noFault S hsafe maxDepth input (maxDepth + 2) input 0 ⟨0, []⟩
    (by omega) (by omega)
  unfold scan
  simp only [h]

theorem scan_evs (S : Site) (maxDepth : Nat) (input : CStr) :
    ∃ tail, (scan S maxDepth input).evs =
        (dfs S maxDepth input (maxDepth + 2) input 0 ⟨0, []⟩).evs ++ tail ∧
      (scan S maxDepth input).st.visited =
        (dfs S maxDepth input (maxDepth + 2) input 0 ⟨0, []⟩).st.visited ∧
      (tail = [] ∨ tail = [Event.check
          (S.stop_flag (dfs S maxDepth input (maxDepth + 2) input 0 ⟨0, []⟩).st.clock),
        Event.emit (if S.stop_flag (dfs S maxDepth input (maxDepth + 2) input 0 ⟨0, []⟩).st.clock
          then Finding.stopped else Finding.complete)] ∧
          (dfs S maxDepth input (maxDepth + 2) input 0 ⟨0, []⟩).fault = none) := by
  unfold scan
  simp only []
  cases hf : (dfs S maxDepth input (maxDepth + 2) input 0 ⟨0, []⟩).fault with
  | none => exact ⟨_, rfl, rfl, Or.inr ⟨rfl, rfl⟩⟩
  | some f => exact ⟨[], by simp, rfl, Or.inl rfl⟩

/-! ## The visited table and the requests -/

theorem linkLoop_visited (S : Site) (base : CStr) (call : CStr → St → Run)
    (hcall : ∀ l s, VisitedInv base (some l) s (call l s))
    (entries : List (Option CStr)) (st : St) :
    VisitedInv base none st (linkLoop S base call entries st) := by
  apply linkLoop_induct S base call (fun _ st r => VisitedInv base none st r)
  · intro st; simp [VisitedInv]
  · intro entry rest st _; simp [VisitedInv]
  · intro rest st _; simp [VisitedInv]
  · intro link rest st _ _ r _ ih
    simpa [VisitedInv] using ih
  · intro link rest st _ hd r f hr _
    have := hcall link ⟨st.clock + 1, st.visited⟩
    rw [← hr] at this
    obtain ⟨c1, c2, c3, c4⟩ := this
    refine ⟨?_, ?_, c3, ?_⟩
    · simpa [fetched_probeEvents] using c1
    · simpa [fetched_probeEvents, visits_probeEvents] using c2
    · intro u hu
      simp only [fetched_append, fetched_probeEvents, List.nil_append] at hu
      rcases c4 u hu with h1 | h1
      · cases h1; exact Or.inr hd
      · exact Or.inr h1
  · intro link rest st _ hd r r2 hr _ _ ih
    have := hcall link ⟨st.clock + 1, st.visited⟩
    rw [← hr] at this
    obtain ⟨c1, c2, c3, c4⟩ := this
    obtain ⟨r1, r2', r3, r4⟩ := ih
    simp only at c1 c3
    refine ⟨?_, ?_, ?_, ?_⟩
    · simp only [fetched_append, fetched_probeEvents, List.nil_append]
      rw [r1, c1, List.append_assoc]
    · simp only [fetched_append, fetched_probeEvents, visits_append, visits_probeEvents,
        List.nil_append, c2, r2']
    · intro hnd; exact r3 (c3 hnd)
    · intro u hu
      simp only [fetched_append, fetched_probeEvents, List.nil_append] at hu
      rcases List.mem_append.mp hu with hu | hu
      · rcases c4 u hu with h1 | h1
        · cases h1; exact Or.inr hd
        · exact Or.inr h1
      · exact r4 u hu

theorem dfs_visited (S : Site) (maxDepth : Nat) (base : CStr) (fuel : Nat) (url : CStr)
    (depth : Nat) (st : St) :
    VisitedInv base (some url) st (dfs S maxDepth base fuel url depth st) := by
  induction fuel generalizing url depth st with
  | zero => simp [dfs, VisitedInv]
  | succ fuel ih =>
    have hnd : url ∉ st.visited → st.visited.Nodup → (st.visited ++ [url]).Nodup := by
      intro hnot hnd
      rw [List.nodup_append]
      exact ⟨hnd, by simp, by simpa using hnot⟩
    apply dfs_cases S maxDepth base fuel url depth st (fun r => VisitedInv base (some url) st r)
    · intro _; simp [VisitedInv]
    · intro _ _ hnot _
      exact ⟨by simp, by simp, hnd hnot, by simp⟩
    · intro _ _ hnot html _ _
      exact ⟨by simp, by simp, hnd hnot, by simp⟩
    · intro _ _ hnot html _ ls _ _ r hr
      have := linkLoop_visited S base _ (fun l s => ih l (depth + 1) s) (ls.map some)
        ⟨st.clock + 1, st.visited ++ [url]⟩
      rw [← hr] at this
      obtain ⟨r1, r2, r3, r4⟩ := this
      simp only at r1 r3
      refine ⟨?_, ?_, ?_, ?_⟩
      · simp only [List.cons_append, List.nil_append, fetched_check, fetched_visit,
          fetched_fetch]
        rw [r1]; simp
      · simp [r2]
      · intro h; exact r3 (hnd hnot h)
      · intro u hu
        simp only [List.cons_append, List.nil_append, fetched_check, fetched_visit,
          fetched_fetch, List.mem_cons] at hu
        rcases hu with hu | hu
        · exact Or.inl (by rw [hu])
        · rcases r4 u hu with h1 | h1
          · cases h1
          · exact Or.inr h1

/-- C2: for every site, depth bound and seed, the run of the scan ends
normally or on the write past `char href[1024]` (never for lack of fuel, never
on `links`), and it ends normally when every href of the site fits in `href`.
In every case the URLs passed to `fetch_remote` during the run have no
duplicates; the keys of the visited table at the end of the run are exactly
the URLs fetched (in the order of the requests, so the table has as many keys
as there are distinct URLs fetched), and they are the URLs inserted in the
table; each of them is the seed or passes `is_same_domain`. -/
theorem scan_fetches_each_url_once (S : Site) (maxDepth : Nat) (input : CStr) :
    ((scan S maxDepth input).fault = none ∨
      (scan S maxDepth input).fault = some (Fault.href HREF_SIZE)) ∧
    (SafeSite S → (scan S maxDepth input).fault = none) ∧
    (fetched (scan S maxDepth input).evs).Nodup ∧
    (scan S maxDepth input).st.visited = fetched (scan S maxDepth input).evs ∧
    visits (scan S maxDepth input).evs = fetched (scan S maxDepth input).evs ∧
    (scan S maxDepth input).st.visited.length =
      (fetched (scan S maxDepth input).evs).toFinset.card ∧
    ∀ u ∈ fetched (scan S maxDepth input).evs, u = input ∨ is_same_domain input u = true := by
  obtain ⟨r1, r2, r3, r4⟩ := dfs_visited S maxDepth input (maxDepth + 2) input 0 ⟨0, []⟩
  obtain ⟨tail, he, hv, ht⟩ := scan_evs S maxDepth input
  simp only [List.nil_append] at r1
  have hf : fetched (scan S maxDepth input).evs =
      fetched (dfs S maxDepth input (maxDepth + 2) input 0 ⟨0, []⟩).evs := by
    rw [he]
    rcases ht with rfl | ⟨rfl, _⟩ <;> simp
  have hvi : visits (scan S maxDepth input).evs =
      visits (dfs S maxDepth input (maxDepth + 2) input 0 ⟨0, []⟩).evs := by
    rw [he]
    rcases ht with rfl | ⟨rfl, _⟩ <;> simp
  have hnd : (fetched (scan S maxDepth input).evs).Nodup := by
    rw [hf, ← r1]; exact r3 List.nodup_nil
  refine ⟨scan_faultOk S maxDepth input, fun hs => scan_noFault S hs maxDepth input, hnd, ?_,
    ?_, ?_, ?_⟩
  · rw [hv, hf, r1]
  · rw [hvi, hf, r2]
  · rw [List.toFinset_card_of_nodup hnd, hv, hf, r1]
  · intro u hu
    rw [hf] at hu
    rcases r4 u hu with h1 | h1
    · left; cases h1; rfl
    · exact Or.inr h1

/-! ## The depth bound -/

theorem quiet_nil : Quiet [] := by
  intro e he; cases he

theorem quiet_append (a b : List Event) (ha : Quiet a) (hb : Quiet b) : Quiet (a ++ b) := by
  intro e he
  rcases List.mem_append.mp he with h | h
  · exact ha e h
  · exact hb e h

theorem quiet_eq_replicate (l : List Event) (h : Quiet l) :
    l = List.replicate l.length (Event.check true) :=
  List.eq_replicate_iff.mpr ⟨rfl, h⟩

theorem quietAfterStop_of_quiet (l : List Event) (h : Quiet l) : QuietAfterStop l := by
  induction l with
  | nil => trivial
  | cons e es ih =>
    have hes : Quiet es := fun x hx => h x (List.mem_cons_of_mem _ hx)
    exact ⟨fun _ => hes, fun _ => ih hes⟩

theorem quietAfterStop_append (a b : List Event) (ha : QuietAfterStop a)
    (hb : QuietAfterStop b) (hab : Event.check true ∈ a → Quiet b) :
    QuietAfterStop (a ++ b) := by
  induction a with
  | nil => simpa using hb
  | cons e es ih =>
    obtain ⟨h1, h2⟩ := ha
    refine ⟨?_, ?_⟩
    · intro he
      exact quiet_append _ _ (h1 he) (hab (by simp [he]))
    · intro he
      exact ih (h2 he) (fun hm => hab (List.mem_cons_of_mem _ hm))

theorem quietAfterStop_split (l : List Event) (h : QuietAfterStop l) (pre post : List Event)
    (hl : l = pre ++ Event.check true :: post) : Quiet post := by
  induction pre generalizing l with
  | nil =>
    subst hl
    exact h.1 rfl
  | cons e es ih =>
    subst hl
    by_cases he : e = Event.check true
    · have := h.1 he
      intro x hx
      exact this x (by simp [hx])
    · exact ih _ (h.2 he) rfl

theorem quietAfterStop_prefix (pfx t : List Event) (hp : ∀ x ∈ pfx, x ≠ Event.check true)
    (ht : QuietAfterStop t) :
    QuietAfterStop (pfx ++ t) ∧ (Event.check true ∈ pfx ++ t → Event.check true ∈ t) := by
  induction pfx with
  | nil => exact ⟨by simpa using ht, by simp⟩
  | cons x xs ih =>
    have hx := hp x (by simp)
    have hxs := ih (fun y hy => hp y (List.mem_cons_of_mem _ hy))
    refine ⟨⟨fun he => absurd he hx, fun _ => hxs.1⟩, ?_⟩
    intro hm
    simp only [List.cons_append, List.mem_cons] at hm
    rcases hm with hm | hm
    · exact absurd hm.symm hx
    · exact hxs.2 hm

theorem dfs_stopped (S : Site) (maxDepth : Nat) (base : CStr) (fuel : Nat) (url : CStr)
    (depth : Nat) (st : St) (h : S.stop_flag st.clock = true) :
    dfs S maxDepth base (fuel + 1) url depth st =
      ⟨⟨st.clock + 1, st.visited⟩, [Event.check true], none⟩ := by
  rw [dfs]
  simp [h]

theorem linkLoop_stopped (S : Site) (base : CStr) (call : CStr → St → Run)
    (entries : List (Option CStr)) (st : St) (h : S.stop_flag st.clock = true) :
    Quiet (linkLoop S base call entries st).evs ∧
      (linkLoop S base call entries st).st.visited = st.visited ∧
      st.clock ≤ (linkLoop S base call entries st).st.clock ∧
      (linkLoop S base call entries st).fault = none := by
  cases entries with
  | nil => exact ⟨quiet_nil, rfl, Nat.le_refl _, rfl⟩
  | cons entry rest =>
    have : linkLoop S base call (entry :: rest) st =
        ⟨⟨st.clock + 1, st.visited⟩, [Event.check true], none⟩ := by
      unfold linkLoop
      simp [h]
    rw [this]
    refine ⟨?_, rfl, by simp, rfl⟩
    intro e he
    simpa using he

theorem linkLoop_stopInv (S : Site) (base : CStr)
    (hmono : ∀ i j, i ≤ j → S.stop_flag i = true → S.stop_flag j = true)
    (call : CStr → St → Run) (hcall : ∀ l s, StopInv S s (call l s))
    (entries : List (Option CStr)) (st : St) :
    StopInv S st (linkLoop S base call entries st) := by
  apply linkLoop_induct S base call (fun _ st r => StopInv S st r)
  · intro st
    exact ⟨Nat.le_refl _, trivial, by simp⟩
  · intro entry rest st hb
    exact ⟨by simp, ⟨fun _ => quiet_nil, fun _ => trivial⟩,
      fun _ => ⟨hmono _ _ (Nat.le_succ _) hb, rfl⟩⟩
  · intro rest st _
    exact ⟨by simp, ⟨fun he => by simp at he, fun _ => trivial⟩, by simp⟩
  · intro link rest st _ _ r _ ih
    obtain ⟨r1, r2, r3⟩ := ih
    simp only at r1
    refine ⟨by simp only; omega, ⟨fun he => by simp at he, fun _ => r2⟩, ?_⟩
    intro hm
    simp only [List.mem_cons, Event.check.injEq, Bool.true_eq_false, false_or] at hm
    exact r3 hm
  · intro link rest st _ _ r f hr hf
    have := hcall link ⟨st.clock + 1, st.visited⟩
    rw [← hr] at this
    obtain ⟨c1, c2, c3⟩ := this
    simp only at c1
    obtain ⟨g1, g2⟩ := quietAfterStop_prefix _ r.evs (not_check_true_probeEvents S link) c2
    refine ⟨by simp only; omega, g1, ?_⟩
    intro hm
    have := (c3 (g2 hm)).2
    rw [hf] at this
    cases this
  · intro link rest st _ _ r r2 hr _ hr2 ih
    have := hcall link ⟨st.clock + 1, st.visited⟩
    rw [← hr] at this
    obtain ⟨c1, c2, c3⟩ := this
    obtain ⟨i1, i2, i3⟩ := ih
    simp only at c1
    have hq : Event.check true ∈ r.evs → Quiet r2.evs ∧ S.stop_flag r2.st.clock = true ∧
        r2.fault = none := by
      intro hm
      have hflag := (c3 hm).1
      obtain ⟨q1, _, q3, q4⟩ := linkLoop_stopped S base call rest r.st hflag
      rw [← hr2] at q1 q3 q4
      exact ⟨q1, hmono _ _ q3 hflag, q4⟩
    have htail := quietAfterStop_append r.evs r2.evs c2 i2 (fun hm => (hq hm).1)
    obtain ⟨g1, g2⟩ := quietAfterStop_prefix _ (r.evs ++ r2.evs)
      (not_check_true_probeEvents S link) htail
    refine ⟨by simp only; omega, by simpa [List.append_assoc] using g1, ?_⟩
    intro hm
    have hm2 := g2 (by simpa [List.append_assoc] using hm)
    rcases List.mem_append.mp hm2 with hm3 | hm3
    · exact (hq hm3).2
    · exact i3 hm3

theorem dfs_stopInv (S : Site) (maxDepth : Nat) (base : CStr)
    (hmono : ∀ i j, i ≤ j → S.stop_flag i = true → S.stop_flag j = true)
    (fuel : Nat) (url : CStr) (depth : Nat) (st : St) :
    StopInv S st (dfs S maxDepth base fuel url depth st) := by
  induction fuel generalizing url depth st with
  | zero => exact ⟨Nat.le_refl _, trivial, by simp [dfs]⟩
  | succ fuel ih =>
    apply dfs_cases S maxDepth base fuel url depth st (fun r => StopInv S st r)
    · intro _
      refine ⟨by simp, ⟨fun _ => quiet_nil, fun _ => trivial⟩, ?_⟩
      intro hm
      simp only [List.mem_singleton, Event.check.injEq] at hm
      exact ⟨hmono _ _ (Nat.le_succ _) hm.symm, rfl⟩
    · intro _ _ _ _
      refine ⟨by simp, ?_, by simp⟩
      refine ⟨fun he => by simp at he, fun _ => ?_⟩
      refine ⟨fun he => by simp at he, fun _ => ?_⟩
      refine ⟨fun he => by simp at he, fun _ => ?_⟩
      exact ⟨fun he => by simp at he, fun _ => trivial⟩
    · intro _ _ _ html _ _
      refine ⟨by simp, ?_, by simp⟩
      refine ⟨fun he => by simp at he, fun _ => ?_⟩
      refine ⟨fun he => by simp at he, fun _ => ?_⟩
      exact ⟨fun he => by simp at he, fun _ => trivial⟩
    · intro _ _ _ html _ ls _ _ r hr
      have := linkLoop_stopInv S base hmono _ (fun l s => ih l (depth + 1) s) (ls.map some)
        ⟨st.clock + 1, st.visited ++ [url]⟩
      rw [← hr] at this
      obtain ⟨r1, r2, r3⟩ := this
      simp only at r1
      refine ⟨by simp only; omega, ?_, ?_⟩
      · refine ⟨fun he => by simp at he, fun _ => ?_⟩
        refine ⟨fun he => by simp at he, fun _ => ?_⟩
        exact ⟨fun he => by simp at he, fun _ => r2⟩
      · intro hm
        simp only [List.cons_append, List.nil_append, List.mem_cons, Event.check.injEq,
          Bool.true_eq_false, reduceCtorEq, false_or] at hm
        exact r3 hm

/-- C8: the stop flag staying set once set, for every site, depth bound and
seed, the run of the scan ends normally or on the write past
`char href[1024]`, normally when every href of the site fits in `href`; and
whenever a read of the flag finds it set, the run ends normally and all that
follows that read is further such reads and then the single message "scan
stopped": no request, no insertion in the visited table and no other finding
come after that read. -/
theorem scan_cancellation (S : Site)
    (hmono : ∀ i j, i ≤ j → S.stop_flag i = true → S.stop_flag j = true)
    (maxDepth : Nat) (input : CStr) :
    ((scan S maxDepth input).fault = none ∨
      (scan S maxDepth input).fault = some (Fault.href HREF_SIZE)) ∧
    (SafeSite S → (scan S maxDepth input).fault = none) ∧
    ∀ pre post, (scan S maxDepth input).evs = pre ++ Event.check true :: post →
      (scan S maxDepth input).fault = none ∧
      (∃ k, post = List.replicate k (Event.check true) ++ [Event.emit Finding.stopped]) ∧
      fetched post = [] ∧ probed post = [] ∧ visits post = [] ∧
      findings post = [Finding.stopped] := by
  refine ⟨scan_faultOk S maxDepth input, fun hs => scan_noFault S hs maxDepth input, ?_⟩
  obtain ⟨_, r2, r3⟩ := dfs_stopInv S maxDepth input hmono (maxDepth + 2) input 0 ⟨0, []⟩
  intro pre post hsplit
  have key : (scan S maxDepth input).fault = none ∧
      ∃ k, post = List.replicate k (Event.check true) ++ [Event.emit Finding.stopped] := by
    unfold scan at hsplit ⊢
    simp only [] at hsplit ⊢
    cases hf : (dfs S maxDepth input (maxDepth + 2) input 0 ⟨0, []⟩).fault with
    | some f =>
      rw [hf] at hsplit
      simp only [] at hsplit
      have := (r3 (by rw [hsplit]; simp)).2
      rw [hf] at this
      cases this
    | none =>
      rw [hf] at hsplit
      simp only [] at hsplit ⊢
      refine ⟨trivial, ?_⟩
      rw [List.append_eq_append_iff] at hsplit
      rcases hsplit with ⟨a, _, hb⟩ | ⟨c, hc, hd⟩
      · -- the read is the last one, made by the worker
        cases a with
        | nil =>
          simp only [List.nil_append, List.cons.injEq, Event.check.injEq] at hb
          obtain ⟨hflag, hpost⟩ := hb
          exact ⟨0, by rw [← hpost, hflag]; rfl⟩
        | cons x xs =>
          simp only [List.cons_append, List.cons.injEq] at hb
          obtain ⟨_, hb⟩ := hb
          cases xs with
          | nil => simp at hb
          | cons y ys => simp at hb
      · -- the read is made by `dfs`
        cases c with
        | nil =>
          simp only [List.nil_append, List.cons.injEq, Event.check.injEq] at hd
          obtain ⟨hflag, hpost⟩ := hd
          exact ⟨0, by rw [hpost, ← hflag]; rfl⟩
        | cons x xs =>
          simp only [List.cons_append, List.cons.injEq] at hd
          obtain ⟨rfl, rfl⟩ := hd
          have hq : Quiet xs := quietAfterStop_split _ r2 pre xs hc
          have hflag := (r3 (by rw [hc]; simp)).1
          refine ⟨xs.length + 1, ?_⟩
          rw [hflag]
          simp only [if_true]
          rw [List.replicate_succ', List.append_assoc]
          conv_lhs => rw [quiet_eq_replicate xs hq]
          simp
  obtain ⟨hnf, k, rfl⟩ := key
  have hrep : ∀ n : Nat, fetched (List.replicate n (Event.check true)) = [] ∧
      probed (List.replicate n (Event.check true)) = [] ∧
      visits (List.replicate n (Event.check true)) = [] ∧
      findings (List.replicate n (Event.check true)) = [] := by
    intro n
    induction n with
    | zero => exact ⟨rfl, rfl, rfl, rfl⟩
    | succ n ih => simpa [List.replicate_succ] using ih
  obtain ⟨h1, h2, h3, h4⟩ := hrep k
  exact ⟨hnf, ⟨k, rfl⟩, by simp [h1], by simp [h2], by simp [h3], by simp [h4]⟩

/-! ## The end-to-end scenario -/

theorem linkLoop_cons_out (S : Site) (base : CStr) (call : CStr → St → Run) (link : CStr)
    (rest : List (Option CStr)) (st : St) (hb : S.stop_flag st.clock = false)
    (hd : is_same_domain base link = false) :
    linkLoop S base call (some link :: rest) st =
      ⟨(linkLoop S base call rest ⟨st.clock + 1, st.visited⟩).st,
        Event.check false :: (linkLoop S base call rest ⟨st.clock + 1, st.visited⟩).evs,
        (linkLoop S base call rest ⟨st.clock + 1, st.visited⟩).fault⟩ := by
  conv_lhs => unfold linkLoop
  simp only [hb, hd, Bool.false_eq_true, if_false, Bool.not_false, if_true]

theorem linkLoop_cons_ok (S : Site) (base : CStr) (call : CStr → St → Run) (link : CStr)
    (rest : List (Option CStr)) (st : St) (hb : S.stop_flag st.clock = false)
    (hd : is_same_domain base link = true)
    (hf : (call link ⟨st.clock + 1, st.visited⟩).fault = none) :
    linkLoop S base call (some link :: rest) st =
      ⟨(linkLoop S base call rest (call link ⟨st.clock + 1, st.visited⟩).st).st,
        probeEvents S link ++ (call link ⟨st.clock + 1, st.visited⟩).evs ++
          (linkLoop S base call rest (call link ⟨st.clock + 1, st.visited⟩).st).evs,
        (linkLoop S base call rest (call link ⟨st.clock + 1, st.visited⟩).st).fault⟩ := by
  conv_lhs => unfold linkLoop
  simp only [hb, hd, hf, Bool.false_eq_true, if_false, Bool.not_true]
  rfl

theorem dfs_leaf (S : Site) (maxDepth : Nat) (base : CStr) (fuel : Nat) (url : CStr)
    (depth : Nat) (st : St) (body : List Char) (hstop : ∀ k, S.stop_flag k = false)
    (hdepth : depth ≤ maxDepth) (hnew : st.visited.contains url = false)
    (hfetch : S.fetch_remote url = some body) (hbody : allMatches body = []) :
    dfs S maxDepth base (fuel + 1) url depth st =
      ⟨⟨st.clock + 1, st.visited ++ [url]⟩,
        [Event.check false, Event.visit url, Event.fetch url depth], none⟩ := by
  obtain ⟨arr, count, ls, hex, hag, hls⟩ := extract_links_ok body base
    (by intro v hv; rw [hbody] at hv; cases hv)
  have hls2 : ls = [] := by
    rw [hls (by intro v hv; rw [hbody] at hv; cases hv)]
    unfold pageLinks
    rw [hbody]
    rfl
  subst hls2
  obtain ⟨_, _, _, htake⟩ := hag
  rw [dfs]
  simp only [hstop, hnew, hfetch, hex, htake, List.map_nil, linkLoop, Bool.or_self,
    Bool.false_eq_true, if_false, gt_iff_lt, Nat.not_lt.mpr hdepth, decide_False,
    List.append_nil]

/-- C1: on every site whose seed page `http://site.test` has exactly the
anchors `/ok`, `/missing` and `http://external.test/x`, in this order, where
`/ok` answers 200 and `/missing` 404 and both pages are fetched with no anchor
in them, and with the stop flag never set, `worker_thread` ends normally and
its findings are exactly the dead link 404 for `http://site.test/missing`
followed by "scan complete"; the external link is neither probed nor fetched,
whatever `check_link` would answer for it. -/
theorem worker_thread_scenario (S : Site) (html okBody missingBody : List Char)
    (hstop : ∀ k, S.stop_flag k = false)
    (hseed : S.fetch_remote seedUrl = some html)
    (hanchors : allMatches html = ["/ok".toList, "/missing".toList, externalUrl])
    (hok : S.check_link okUrl = 200)
    (hmissing : S.check_link missingUrl = 404)
    (hokBody : S.fetch_remote okUrl = some okBody)
    (hokAnchors : allMatches okBody = [])
    (hmissingBody : S.fetch_remote missingUrl = some missingBody)
    (hmissingAnchors : allMatches missingBody = []) :
    (worker_thread S seedUrl).fault = none ∧
      (worker_thread S seedUrl).st.visited = [seedUrl, okUrl, missingUrl] ∧
      findings (worker_thread S seedUrl).evs =
        [Finding.dead 404 missingUrl, Finding.complete] ∧
      fetched (worker_thread S seedUrl).evs = [seedUrl, okUrl, missingUrl] ∧
      probed (worker_thread S seedUrl).evs = [okUrl, missingUrl] ∧
      externalUrl ∉ probed (worker_thread S seedUrl).evs ∧
      externalUrl ∉ fetched (worker_thread S seedUrl).evs ∧
      (worker_thread S seedUrl).evs =
        [Event.check false, Event.visit seedUrl, Event.fetch seedUrl 0,
        Event.check false, Event.probe okUrl,
        Event.check false, Event.visit okUrl, Event.fetch okUrl 1,
        Event.check false, Event.probe missingUrl,
        Event.emit (Finding.dead 404 missingUrl),
        Event.check false, Event.visit missingUrl, Event.fetch missingUrl 1,
        Event.check false,
        Event.check false, Event.emit Finding.complete] := by
  obtain ⟨arr, count, ls, hex, hag, hls⟩ := extract_links_ok html seedUrl
    (by intro v hv; rw [hanchors] at hv; revert v; decide)
  have hls2 : ls = [okUrl, missingUrl, externalUrl] := by
    rw [hls (by intro v hv; rw [hanchors] at hv; revert v; decide)]
    unfold pageLinks
    rw [hanchors]
    rfl
  subst hls2
  obtain ⟨_, _, _, htake⟩ := hag
  have d1 : is_same_domain seedUrl okUrl = true := by decide
  have d2 : is_same_domain seedUrl missingUrl = true := by decide
  have d3 : is_same_domain seedUrl externalUrl = false := by decide
  have c1 := dfs_leaf S 3 seedUrl 3 okUrl (0 + 1) ⟨0 + 1 + 1, [] ++ [seedUrl]⟩ okBody hstop
    (by omega) (by decide) hokBody hokAnchors
  have c2 := dfs_leaf S 3 seedUrl 3 missingUrl (0 + 1)
    ⟨0 + 1 + 1 + 1 + 1, [] ++ [seedUrl] ++ [okUrl]⟩ missingBody hstop
    (by omega) (by decide) hmissingBody hmissingAnchors
  have p1 : probeEvents S okUrl = [Event.check false, Event.probe okUrl] := by
    unfold probeEvents; rw [hok]; rfl
  have p2 : probeEvents S missingUrl = [Event.check false, Event.probe missingUrl,
      Event.emit (Finding.dead 404 missingUrl)] := by
    unfold probeEvents; rw [hmissing]; rfl
  have hrun : worker_thread S seedUrl = ⟨⟨0 + 1 + 1 + 1 + 1 + 1 + 1 + 1, [seedUrl, okUrl, missingUrl]⟩,
      [Event.check false, Event.visit seedUrl, Event.fetch seedUrl 0,
        Event.check false, Event.probe okUrl,
        Event.check false, Event.visit okUrl, Event.fetch okUrl 1,
        Event.check false, Event.probe missingUrl,
        Event.emit (Finding.dead 404 missingUrl),
        Event.check false, Event.visit missingUrl, Event.fetch missingUrl 1,
        Event.check false,
        Event.check false, Event.emit Finding.complete], none⟩ := by
    unfold worker_thread scan MAX_DEPTH
    rw [show (3 + 2 : Nat) = 4 + 1 from rfl, dfs]
    simp only [hstop, hseed, hex, htake, List.map_cons, List.map_nil,
      List.contains_nil, Bool.or_self, Bool.false_eq_true, if_false, gt_iff_lt, Nat.not_lt_zero,
      decide_False]
    rw [linkLoop_cons_ok S seedUrl _ okUrl _ _ (hstop _) d1 (by rw [c1])]
    simp only [c1]
    rw [linkLoop_cons_ok S seedUrl _ missingUrl _ _ (hstop _) d2 (by rw [c2])]
    simp only [c2]
    rw [linkLoop_cons_out S seedUrl _ externalUrl _ _ (hstop _) d3]
    simp only [linkLoop, p1, p2]
    rfl
  rw [hrun]
  exact ⟨rfl, rfl, by decide, by decide, by decide, by decide, by decide, rfl⟩

set_option maxRecDepth 100000 in
theorem worker_thread_scenario_witness :
    (worker_thread (scenarioSite none) seedUrl).fault = none ∧
      (worker_thread (scenarioSite none) seedUrl).st.visited = [seedUrl, okUrl, missingUrl] ∧
      findings (worker_thread (scenarioSite none) seedUrl).evs =
        [Finding.dead 404 missingUrl, Finding.complete] ∧
      fetched (worker_thread (scenarioSite none) seedUrl).evs = [seedUrl, okUrl, missingUrl] ∧
      probed (worker_thread (scenarioSite none) seedUrl).evs = [okUrl, missingUrl] ∧
      externalUrl ∉ probed (worker_thread (scenarioSite none) seedUrl).evs ∧
      externalUrl ∉ fetched (worker_thread (scenarioSite none) seedUrl).evs ∧
      (worker_thread (scenarioSite none) seedUrl).evs =
        [Event.check false, Event.visit seedUrl, Event.fetch seedUrl 0,
        Event.check false, Event.probe okUrl,
        Event.check false, Event.visit okUrl, Event.fetch okUrl 1,
        Event.check false, Event.probe missingUrl,
        Event.emit (Finding.dead 404 missingUrl),
        Event.check false, Event.visit missingUrl, Event.fetch missingUrl 1,
        Event.check false,
        Event.check false, Event.emit Finding.complete] :=
  worker_thread_scenario (scenarioSite none) seedHtml "<html>fine</html>".toList
    "<html>not found</html>".toList (fun _ => rfl) (by decide) (by decide) (by decide)
    (by decide) (by decide) (by decide) (by decide) (by decide)

/-! ## The cap of `extract_links` and the candidates of `dfs` -/

set_option maxRecDepth 100000 in
theorem scenarioSite_safe (stopAt : Option Nat) : SafeSite (scenarioSite stopAt) := by
  intro u html h
  have h1 : ShortHrefs seedHtml := by unfold ShortHrefs; decide
  have h2 : ShortHrefs "<html>fine</html>".toList := by unfold ShortHrefs; decide
  have h3 : ShortHrefs "<html>not found</html>".toList := by unfold ShortHrefs; decide
  simp only [scenarioSite] at h
  split at h
  · cases h; exact h1
  · split at h
    · cases h; exact h2
    · split at h
      · cases h; exact h3
      · cases h

theorem scan_fetches_each_url_once_witness :
    (scan (scenarioSite none) MAX_DEPTH seedUrl).fault = none :=
  (scan_fetches_each_url_once (scenarioSite none) MAX_DEPTH seedUrl).2.1
    (scenarioSite_safe none)

set_option maxRecDepth 100000 in
theorem scan_cancellation_witness :
    (∀ i j, i ≤ j → (scenarioSite (some 3)).stop_flag i = true →
      (scenarioSite (some 3)).stop_flag j = true) ∧
    Event.check true ∈ (scan (scenarioSite (some 3)) MAX_DEPTH seedUrl).evs ∧
    ∀ pre post, (scan (scenarioSite (some 3)) MAX_DEPTH seedUrl).evs =
        pre ++ Event.check true :: post →
      (scan (scenarioSite (some 3)) MAX_DEPTH seedUrl).fault = none ∧
      (∃ k, post = List.replicate k (Event.check true) ++ [Event.emit Finding.stopped]) ∧
      fetched post = [] ∧ probed post = [] ∧ visits post = [] ∧
      findings post = [Finding.stopped] := by
  have hmono : ∀ i j, i ≤ j → (scenarioSite (some 3)).stop_flag i = true →
      (scenarioSite (some 3)).stop_flag j = true := by
    intro i j hij hi
    simp only [scenarioSite, decide_eq_true_eq] at hi ⊢
    omega
  exact ⟨hmono, by decide,
    (scan_cancellation (scenarioSite (some 3)) hmono MAX_DEPTH seedUrl).2.2⟩

theorem dfs_extract_fault (S : Site) (maxDepth : Nat) (base : CStr) (fuel : Nat) (url : CStr)
    (depth : Nat) (st : St) (html : List Char) (f : Fault)
    (hb : S.stop_flag st.clock = false) (hdepth : depth ≤ maxDepth)
    (hnew : st.visited.contains url = false) (hfetch : S.fetch_remote url = some html)
    (hex : extract_links html base = Except.error f) :
    dfs S maxDepth base (fuel + 1) url depth st =
      ⟨⟨st.clock + 1, st.visited ++ [url]⟩,
        [Event.check false, Event.visit url, Event.fetch url depth], some f⟩ := by
  rw [dfs]
  simp only [hb, hnew, hfetch, hex, Bool.or_self, Bool.false_eq_true, if_false, gt_iff_lt,
    Nat.not_lt.mpr hdepth, decide_False]

/-- A scan whose seed page has an href of 1024 characters ends on the write at
`href[1024]`, after the fetch of the seed and before any probe. -/
theorem worker_thread_href_overflow :
    worker_thread longHrefSite exampleBase =
      ⟨⟨1, [exampleBase]⟩,
        [Event.check false, Event.visit exampleBase, Event.fetch exampleBase 0],
        some (Fault.href 1024)⟩ := by
  have hre : regexec longHrefHtml = some (⟨0, 1034⟩, ⟨9, 1033⟩) :=
    regexec_longHref 1024 (by decide) []
  have hex : extract_links longHrefHtml exampleBase = Except.error (Fault.href 1024) :=
    extract_loop_overflow MAX_LINKS HREF_SIZE exampleBase _ _ _ 0 _ _ (by decide) hre (by decide)
  have hfetch : longHrefSite.fetch_remote exampleBase = some longHrefHtml := by
    show (if exampleBase = exampleBase then some longHrefHtml else none) = some longHrefHtml
    exact if_pos rfl
  have hdfs := dfs_extract_fault longHrefSite 3 exampleBase 4 exampleBase 0 ⟨0, []⟩
    longHrefHtml (Fault.href 1024) rfl (by omega) rfl hfetch hex
  unfold worker_thread scan MAX_DEPTH
  rw [show (3 + 2 : Nat) = 4 + 1 from rfl, hdfs]
  rfl

/-! ## `regexec` is the leftmost-longest match of the pattern -/

theorem takeWhile_append_drop (p : Char → Bool) (l : List Char) :
    l.takeWhile p ++ l.drop (l.takeWhile p).length = l := by
  induction l with
  | nil => rfl
  | cons c cs ih =>
    rw [List.takeWhile_cons]
    split
    · simp only [List.length_cons, List.drop_succ_cons, List.cons_append, ih]
    · rfl

theorem matchHref_iff (t : List Char) (n : Nat) : matchHref t = some n ↔ HrefAt t n := by
  constructor
  · intro h
    unfold matchHref at h
    split at h
    · rename_i hh r e f eq q rest
      split at h
      · rename_i hc
        simp only [] at h
        split at h
        · rename_i q2 tl hd
          split at h
          · rename_i hc2
            cases h
            simp only [Bool.and_eq_true, beq_iff_eq, decide_eq_true_eq] at hc hc2
            refine ⟨hh, r, e, f, eq, q, rest.takeWhile (fun c => !isQuote c), q2, tl, ?_,
              hc.1.1.1.1.1, hc.1.1.1.1.2, hc.1.1.1.2, hc.1.1.2, hc.1.2, hc.2, rfl, hc2.2, ?_,
              hc2.1⟩
            · rw [← hd, takeWhile_append_drop]
            · intro c hcm
              have := List.mem_takeWhile_imp hcm
              simpa using this
          · cases h
        · cases h
      · cases h
    · cases h
  · rintro ⟨h, r, e, f, eq, q1, value, q2, rest, rfl, h1, h2, h3, h4, rfl, h6, rfl, hpos, hval, hq2⟩
    have htw : (value ++ q2 :: rest).takeWhile (fun c => !isQuote c) = value := by
      rw [List.takeWhile_append_of_pos (by intro a ha; simp [hval a ha]),
        List.takeWhile_cons_of_neg (by simp [hq2])]
      simp
    rw [matchHref]
    simp only [h1, h2, h3, h4, h6, beq_self_eq_true, Bool.and_self, if_true, htw]
    rw [List.drop_left' rfl]
    simp [hq2, hpos]

theorem hrefAt_unique (t : List Char) (n n2 : Nat) (h : HrefAt t n) (h2 : HrefAt t n2) :
    n = n2 := by
  have e1 := (matchHref_iff t n).mpr h
  have e2 := (matchHref_iff t n2).mpr h2
  rw [e1] at e2
  exact Option.some.inj e2

theorem hrefAt_open_quote (pre tail : List Char) (n : Nat) (h : HrefAt tail n) :
    ∃ q, (pre ++ tail)[pre.length + 5]? = some q ∧ isQuote q = true := by
  obtain ⟨h0, r, e, f, eq, q1, value, q2, rest, rfl, _, _, _, _, _, hq1, _⟩ := h
  refine ⟨q1, ?_, hq1⟩
  rw [List.getElem?_append_right (by omega), show pre.length + 5 - pre.length = 5 by omega]
  simp

theorem hrefAt_value (pre tail : List Char) (n i : Nat) (h : HrefAt tail n) (hi : i < n) :
    ∃ c, (pre ++ tail)[pre.length + 6 + i]? = some c ∧ isQuote c = false := by
  obtain ⟨h0, r, e, f, eq, q1, value, q2, rest, rfl, _, _, _, _, _, _, hlen, _, hval, _⟩ := h
  have hiv : i < value.length := by omega
  refine ⟨value[i], ?_, hval _ (List.getElem_mem _)⟩
  rw [List.getElem?_append_right (by omega),
    show pre.length + 6 + i - pre.length = i + 6 by omega]
  simp only [List.getElem?_cons_succ]
  rw [List.getElem?_append_left hiv, List.getElem?_eq_getElem hiv]

/-- Of two matches of the rest of the pattern in one text, the one whose
`href=` stands later starts its value after the end of the other value. -/
theorem later_match_longer (cs pre tail pre2 tail2 : List Char) (n n2 : Nat)
    (h1 : cs = pre ++ tail) (hm1 : HrefAt tail n)
    (h2 : cs = pre2 ++ tail2) (hm2 : HrefAt tail2 n2)
    (hlt : pre2.length < pre.length) : pre2.length + n2 + 1 ≤ pre.length := by
  by_contra hcon
  obtain ⟨q, hq, hquote⟩ := hrefAt_open_quote pre tail n hm1
  obtain ⟨c, hc, hnot⟩ := hrefAt_value pre2 tail2 n2 (pre.length - pre2.length - 1) hm2
    (by omega)
  rw [← h1] at hq
  rw [← h2, show pre2.length + 6 + (pre.length - pre2.length - 1) = pre.length + 5 by omega,
    hq] at hc
  cases hc
  rw [hquote] at hnot
  cases hnot

theorem scanAttr_sound (cs : List Char) (off k n : Nat) (h : scanAttr cs off = some (k, n)) :
    ∃ pre tail, cs = pre ++ tail ∧ (∀ c ∈ pre, c ≠ '>') ∧ k = off + pre.length ∧
      HrefAt tail n := by
  induction cs generalizing off with
  | nil => simp [scanAttr] at h
  | cons c cs ih =>
    rw [scanAttr] at h
    split at h
    · rename_i r hr
      cases h
      split at hr
      · cases hr
      · rename_i hc
        obtain ⟨pre, tail, h1, h2, h3, h4⟩ := ih _ hr
        refine ⟨c :: pre, tail, by rw [h1]; rfl, ?_, by simp only [List.length_cons]; omega, h4⟩
        intro x hx
        rcases List.mem_cons.mp hx with rfl | hx
        · simpa using hc
        · exact h2 x hx
    · cases hm : matchHref (c :: cs) with
      | none => rw [hm] at h; cases h
      | some l =>
        rw [hm] at h
        simp only [Option.map_some', Option.some.injEq, Prod.mk.injEq] at h
        obtain ⟨rfl, rfl⟩ := h
        exact ⟨[], c :: cs, rfl, by simp, rfl, (matchHref_iff _ _).mp hm⟩

theorem scanAttr_last (pre tail : List Char) (off n2 : Nat) (hpre : ∀ c ∈ pre, c ≠ '>')
    (hm : HrefAt tail n2) :
    ∃ k n, scanAttr (pre ++ tail) off = some (k, n) ∧ off + pre.length ≤ k := by
  induction pre generalizing off with
  | nil =>
    obtain ⟨h0, r, e, f, eq, q1, value, q2, rest, rfl, hrest⟩ := hm
    have hm2 : matchHref (h0 :: r :: e :: f :: eq :: q1 :: (value ++ q2 :: rest)) = some n2 :=
      (matchHref_iff _ _).mpr ⟨h0, r, e, f, eq, q1, value, q2, rest, rfl, hrest⟩
    rw [List.nil_append, scanAttr, hm2]
    split
    · rename_i r2 hr
      obtain ⟨k, n⟩ := r2
      refine ⟨k, n, rfl, ?_⟩
      split at hr
      · cases hr
      · have := scanAttr_bound _ _ _ _ hr
        simp only [List.length_nil]
        omega
    · exact ⟨off, n2, rfl, by simp⟩
  | cons c pre ih =>
    have hc : c ≠ '>' := hpre c (List.mem_cons_self _ _)
    obtain ⟨k, n, hk, hle⟩ := ih (off + 1) (fun x hx => hpre x (List.mem_cons_of_mem _ hx))
    refine ⟨k, n, ?_, by simp only [List.length_cons]; omega⟩
    rw [List.cons_append, scanAttr]
    simp only [beq_iff_eq, hc, if_false, hk]

theorem matchAt_sound (t : List Char) (k n : Nat) (h : matchAt t = some (k, n)) :
    PatternAt t k n := by
  unfold matchAt at h
  split at h
  · rename_i lt a c cs
    split at h
    · rename_i hc
      simp only [Bool.and_eq_true, beq_iff_eq, Bool.not_eq_true', beq_eq_false_iff_ne,
        ne_eq] at hc
      obtain ⟨⟨rfl, ha⟩, hgt⟩ := hc
      obtain ⟨pre, tail, h1, h2, h3, h4⟩ := scanAttr_sound _ _ _ _ h
      refine ⟨a, c :: pre, tail, by rw [h1]; rfl, ha, by simp, ?_,
        by simp only [List.length_cons]; omega, h4⟩
      intro x hx
      rcases List.mem_cons.mp hx with rfl | hx
      · exact hgt
      · exact h2 x hx
    · cases h
  · cases h

theorem matchAt_longest (t : List Char) (k2 n2 : Nat) (h : PatternAt t k2 n2) :
    ∃ k n, matchAt t = some (k, n) ∧ k2 + 6 + n2 + 1 ≤ k + 6 + n + 1 := by
  obtain ⟨a, mid, tail2, rfl, ha, hmid, hgt, rfl, hm2⟩ := h
  cases mid with
  | nil => exact absurd rfl hmid
  | cons c pre2 =>
    have hc : c ≠ '>' := hgt c (List.mem_cons_self _ _)
    obtain ⟨k, n, hk, hle⟩ := scanAttr_last pre2 tail2 3 n2
      (fun x hx => hgt x (List.mem_cons_of_mem _ hx)) hm2
    refine ⟨k, n, ?_, ?_⟩
    · rw [List.cons_append, matchAt]
      simp only [beq_self_eq_true, ha, Bool.and_self, Bool.true_and, Bool.not_eq_true',
        beq_eq_false_iff_ne, ne_eq, hc, not_false_eq_true, if_true, hk]
    · obtain ⟨pre, tail, h1, _, h3, h4⟩ := scanAttr_sound _ _ _ _ hk
      simp only [List.length_cons]
      by_cases hlt : pre2.length < pre.length
      · have := later_match_longer _ pre tail pre2 tail2 n n2 h1 h4 rfl hm2 hlt
        omega
      · have hlen : pre2.length = pre.length := by omega
        obtain ⟨hp, ht⟩ := List.append_inj h1 hlen
        rw [ht] at hm2
        have := hrefAt_unique _ _ _ hm2 h4
        omega

theorem regexecFrom_spec (cursor : List Char) (p : Nat) :
    match regexecFrom cursor p with
    | some (m0, m1) =>
      ∃ k n, p ≤ m0.rm_so ∧ PatternAt (cursor.drop (m0.rm_so - p)) k n ∧
        m0.rm_eo = m0.rm_so + (k + 6 + n + 1) ∧
        m1.rm_so = m0.rm_so + (k + 6) ∧ m1.rm_eo = m0.rm_so + (k + 6) + n ∧
        (∀ q, q < m0.rm_so - p → ∀ k2 n2, ¬ PatternAt (cursor.drop q) k2 n2) ∧
        (∀ k2 n2, PatternAt (cursor.drop (m0.rm_so - p)) k2 n2 →
          k2 + 6 + n2 + 1 ≤ k + 6 + n + 1)
    | none => ∀ q k n, ¬ PatternAt (cursor.drop q) k n := by
  induction cursor generalizing p with
  | nil =>
    simp only [regexecFrom, List.drop_nil]
    rintro q k n ⟨a, mid, tail, h, _⟩
    cases h
  | cons c cs ih =>
    rw [regexecFrom]
    cases hm : matchAt (c :: cs) with
    | some r =>
      obtain ⟨k, n⟩ := r
      simp only [Nat.sub_self, List.drop_zero]
      refine ⟨k, n, Nat.le_refl _, matchAt_sound _ _ _ hm, by omega, by omega, by omega,
        fun q hq => by omega, ?_⟩
      intro k2 n2 h2
      obtain ⟨k3, n3, h3, hle⟩ := matchAt_longest _ _ _ h2
      rw [hm] at h3
      simp only [Option.some.injEq, Prod.mk.injEq] at h3
      obtain ⟨rfl, rfl⟩ := h3
      exact hle
    | none =>
      have hnone : ∀ k n, ¬ PatternAt (c :: cs) k n := by
        intro k n hp
        obtain ⟨k3, n3, h3, _⟩ := matchAt_longest _ _ _ hp
        rw [hm] at h3
        cases h3
      simp only []
      have := ih (p + 1)
      cases hr : regexecFrom cs (p + 1) with
      | none =>
        rw [hr] at this
        simp only [] at this ⊢
        intro q k n
        cases q with
        | zero => exact hnone k n
        | succ q => exact this q k n
      | some m =>
        obtain ⟨m0, m1⟩ := m
        rw [hr] at this
        simp only [] at this ⊢
        obtain ⟨k, n, h1, h2, h3, h4, h5, h6, h7⟩ := this
        have hso : m0.rm_so - p = (m0.rm_so - (p + 1)) + 1 := by omega
        refine ⟨k, n, by omega, ?_, h3, h4, h5, ?_, ?_⟩
        · rw [hso, List.drop_succ_cons]; exact h2
        · intro q hq k2 n2
          cases q with
          | zero => exact hnone k2 n2
          | succ q =>
            rw [List.drop_succ_cons]
            exact h6 q (by omega) k2 n2
        · intro k2 n2 hp
          rw [hso, List.drop_succ_cons] at hp
          exact h7 k2 n2 hp

/-- The model of `regexec` against the pattern read as a relation: when
`regexec` reports a match, the text from `rm_so` on starts with a match of the
pattern that ends at `rm_eo` and whose value is `matches[1]`, no match starts
before `rm_so`, and no match that starts at `rm_so` is longer; when it reports
none, no match starts anywhere in the text. -/
theorem regexec_leftmost_longest (cursor : List Char) :
    match regexec cursor with
    | some (m0, m1) =>
      ∃ k n, PatternAt (cursor.drop m0.rm_so) k n ∧
        m0.rm_eo = m0.rm_so + (k + 6 + n + 1) ∧
        m1.rm_so = m0.rm_so + (k + 6) ∧ m1.rm_eo = m0.rm_so + (k + 6) + n ∧
        (∀ q, q < m0.rm_so → ∀ k2 n2, ¬ PatternAt (cursor.drop q) k2 n2) ∧
        (∀ k2 n2, PatternAt (cursor.drop m0.rm_so) k2 n2 → k2 + 6 + n2 + 1 ≤ k + 6 + n + 1)
    | none => ∀ q k n, ¬ PatternAt (cursor.drop q) k n := by
  have h := regexecFrom_spec cursor 0
  unfold regexec
  cases hr : regexecFrom cursor 0 with
  | none =>
    rw [hr] at h
    exact h
  | some m =>
    obtain ⟨m0, m1⟩ := m
    rw [hr] at h
    simp only [Nat.sub_zero] at h ⊢
    obtain ⟨k, n, _, h2, h3, h4, h5, h6, h7⟩ := h
    exact ⟨k, n, h2, h3, h4, h5, h6, h7⟩

end DeadLink
